import Mathlib

/-!
# Verification of the wiki2docx pipeline

Shallow embedding of the Go sources of `w0ikid/wiki2docx`:
`internal/docx` (filename sanitization, paragraph chunking, DOCX assembly),
`internal/wiki` (article fetch decoding, random-title collection loop) and
`main` (title-file filtering, worker pool sizing).

Strings are modelled as `List Char` (Go strings hold UTF-8 text); where the
Go code manipulates raw bytes (`len`, slicing) we work with the explicit
UTF-8 byte list (`List Nat`).
-/

namespace WikiTwoDocx

/-! ## Unicode / byte prelude -/

/-- UTF-8 encoding of one character, as the list of its bytes
(the encoding Go strings use). -/
def utf8Bytes (c : Char) : List Nat :=
  if c.toNat < 0x80 then [c.toNat]
  else if c.toNat < 0x800 then [0xC0 + c.toNat / 64, 0x80 + c.toNat % 64]
  else if c.toNat < 0x10000 then
    [0xE0 + c.toNat / 4096, 0x80 + (c.toNat / 64) % 64, 0x80 + c.toNat % 64]
  else
    [0xF0 + c.toNat / 262144, 0x80 + (c.toNat / 4096) % 64,
      0x80 + (c.toNat / 64) % 64, 0x80 + c.toNat % 64]

/-- UTF-8 encoding of a string as a byte list. -/
def utf8Encode (s : List Char) : List Nat :=
  s.flatMap utf8Bytes

/-- Go `unicode.IsSpace`: the Unicode White_Space property
(as used by `strings.TrimSpace`). -/
def goIsSpace (c : Char) : Bool :=
  let n := c.toNat
  (0x09 ≤ n && n ≤ 0x0D) || n == 0x20 || n == 0x85 || n == 0xA0 ||
  n == 0x1680 || (0x2000 ≤ n && n ≤ 0x200A) || n == 0x2028 || n == 0x2029 ||
  n == 0x202F || n == 0x205F || n == 0x3000

/-- Drop elements satisfying `p` from the right end of a list. -/
def dropEnd (p : α → Bool) (l : List α) : List α :=
  (l.reverse.dropWhile p).reverse

/-- Go `strings.TrimSpace`: remove leading and trailing Unicode
whitespace. -/
def goTrimSpace (l : List Char) : List Char :=
  dropEnd goIsSpace (l.dropWhile goIsSpace)

/-! ## `internal/docx`: filename sanitization (`safeFilename`)

Go regexp ``[\\/:*?"<>| ]+`` over the bytes of the title; the class holds
only ASCII characters so byte-level and rune-level matching agree.
`len`/`s[:200]` in Go count and slice *bytes*, so the whole function is
modelled on the UTF-8 byte list. -/

/-- A byte matched by the Go regexp character class `[\\/:*?"<>| ]`. -/
def isUnsafeByte (b : Nat) : Bool :=
  b == 0x5C || b == 0x2F || b == 0x3A || b == 0x2A || b == 0x3F ||
  b == 0x22 || b == 0x3C || b == 0x3E || b == 0x7C || b == 0x20

/-- `regexp.ReplaceAllString` with pattern `[...]+` and replacement `_`:
every maximal run of unsafe bytes becomes a single underscore `0x5F`.
The flag records whether the previous byte was part of a run. -/
def replaceRunsAux (inRun : Bool) : List Nat → List Nat
  | [] => []
  | b :: rest =>
    if isUnsafeByte b then
      if inRun then replaceRunsAux true rest
      else 0x5F :: replaceRunsAux true rest
    else b :: replaceRunsAux false rest

def replaceRunsB (l : List Nat) : List Nat :=
  replaceRunsAux false l

/-- Go `strings.Trim(s, "_")`: strip leading and trailing underscores. -/
def trimUnderB (l : List Nat) : List Nat :=
  dropEnd (· == 0x5F) (l.dropWhile (· == 0x5F))

/-- `safeFilename` on the raw byte string: replace unsafe runs, trim
underscores, and truncate to 200 bytes when longer. -/
def safeFilenameB (l : List Nat) : List Nat :=
  if 200 < (trimUnderB (replaceRunsB l)).length then (trimUnderB (replaceRunsB l)).take 200
  else trimUnderB (replaceRunsB l)

/-- `safeFilename` on a (Unicode) title. -/
def safeFilename (title : List Char) : List Nat :=
  safeFilenameB (utf8Encode title)

/-! ## `internal/docx`: paragraph chunking (`Build`) -/

/-- Prefix the first piece with `c` (split functions build pieces left
to right). -/
def prependHead (c : Char) : List (List Char) → List (List Char)
  | [] => [[c]]
  | p :: ps => (c :: p) :: ps

/-- `strings.Split(content, "\n\n")`: split on each non-overlapping
leftmost occurrence of two consecutive newlines. -/
def splitOnNN : List Char → List (List Char)
  | [] => [[]]
  | [c] => [[c]]
  | c1 :: c2 :: rest =>
    if c1 = '\n' ∧ c2 = '\n' then [] :: splitOnNN rest
    else prependHead c1 (splitOnNN (c2 :: rest))

/-- `strings.ReplaceAll(chunk, "\n", " ")`. -/
def collapseNL (l : List Char) : List Char :=
  l.map (fun c => if c = '\n' then ' ' else c)

/-- Trim each piece and drop the pieces that trim to empty (the loop
body of `docx.Build` before newline collapsing). -/
def clean (ps : List (List Char)) : List (List Char) :=
  (ps.map goTrimSpace).filter (fun c => !c.isEmpty)

/-- The chunking pipeline of `docx.Build`: split on `"\n\n"`, trim each
chunk, drop chunks that trim to empty, collapse remaining newlines. -/
def buildChunks (content : List Char) : List (List Char) :=
  (clean (splitOnNN content)).map collapseNL

/-! ## `internal/docx`: document XML (`buildDocumentXML`) -/

/-- Go `xml.isInCharacterRange`: code points legal in XML documents. -/
def xmlCharInRange (c : Char) : Bool :=
  c.toNat == 0x09 || c.toNat == 0x0A || c.toNat == 0x0D ||
  (0x20 ≤ c.toNat && c.toNat ≤ 0xD7FF) ||
  (0xE000 ≤ c.toNat && c.toNat ≤ 0xFFFD) ||
  (0x10000 ≤ c.toNat && c.toNat ≤ 0x10FFFF)

/-- One step of Go `xml.EscapeText`: the eight escaped characters, with
characters outside the XML character range replaced by U+FFFD. -/
def xmlEscapeChar (c : Char) : List Char :=
  if c = '"' then "&#34;".data
  else if c = '\'' then "&#39;".data
  else if c = '&' then "&amp;".data
  else if c = '<' then "&lt;".data
  else if c = '>' then "&gt;".data
  else if c = '\t' then "&#x9;".data
  else if c = '\n' then "&#xA;".data
  else if c = '\r' then "&#xD;".data
  else if xmlCharInRange c then [c]
  else ['�']

/-- Go `xml.EscapeText` (via `xmlEscape` in the source). -/
def xmlEscape (s : List Char) : List Char :=
  s.flatMap xmlEscapeChar

def xmlHeader : String :=
  "<?xml version=\"1.0\" encoding=\"UTF-8\" standalone=\"yes\"?>"

def docOpen : String :=
  "<w:document xmlns:w=\"http://schemas.openxmlformats.org/wordprocessingml/2006/main\"><w:body>"

def titleRunOpen : String :=
  "<w:p><w:r><w:rPr><w:b/><w:sz w:val=\"48\"/></w:rPr><w:t xml:space=\"preserve\">"

def runClose : String :=
  "</w:t></w:r></w:p>"

def paraRunOpen : String :=
  "<w:p><w:pPr><w:jc w:val=\"both\"/></w:pPr><w:r><w:rPr><w:sz w:val=\"24\"/></w:rPr><w:t xml:space=\"preserve\">"

def sectClose : String :=
  "<w:sectPr><w:pgSz w:w=\"12240\" w:h=\"15840\"/><w:pgMar w:top=\"1440\" w:right=\"1440\" w:bottom=\"1440\" w:left=\"1440\" w:header=\"708\" w:footer=\"708\" w:gutter=\"0\"/></w:sectPr></w:body></w:document>"

/-- `buildDocumentXML`: header, heading run holding the escaped title, one
justified paragraph run per chunk, section geometry, closing tags. -/
def buildDocumentXML (title : List Char) (paragraphs : List (List Char)) : List Char :=
  xmlHeader.data ++ docOpen.data ++
  titleRunOpen.data ++ xmlEscape title ++ runClose.data ++
  paragraphs.flatMap (fun p => paraRunOpen.data ++ xmlEscape p ++ runClose.data) ++
  sectClose.data

/-! ## `internal/docx`: archive assembly (`writeDocx`) -/

def contentTypesXML : String :=
  "<?xml version=\"1.0\" encoding=\"UTF-8\" standalone=\"yes\"?>\n<Types xmlns=\"http://schemas.openxmlformats.org/package/2006/content-types\">\n  <Default Extension=\"rels\" ContentType=\"application/vnd.openxmlformats-package.relationships+xml\"/>\n  <Default Extension=\"xml\" ContentType=\"application/xml\"/>\n  <Override PartName=\"/word/document.xml\" ContentType=\"application/vnd.openxmlformats-officedocument.wordprocessingml.document.main+xml\"/>\n</Types>"

def rootRelsXML : String :=
  "<?xml version=\"1.0\" encoding=\"UTF-8\" standalone=\"yes\"?>\n<Relationships xmlns=\"http://schemas.openxmlformats.org/package/2006/relationships\">\n  <Relationship Id=\"rId1\" Type=\"http://schemas.openxmlformats.org/officeDocument/2006/relationships/officeDocument\" Target=\"word/document.xml\"/>\n</Relationships>"

/-- State of the zip writer: the entries written so far, in order. -/
structure ZipArchive where
  entries : List (String × List Char)
deriving DecidableEq

/-- `zw.Create(name)` followed by writing `content`. -/
def addFile (z : ZipArchive) (name : String) (content : List Char) : ZipArchive :=
  ⟨z.entries ++ [(name, content)]⟩

/-- `writeDocx`: a fresh archive receiving the three entries in source
order. -/
def writeDocx (title : List Char) (paragraphs : List (List Char)) : ZipArchive :=
  addFile
    (addFile
      (addFile ⟨[]⟩ "[Content_Types].xml" contentTypesXML.data)
      "_rels/.rels" rootRelsXML.data)
    "word/document.xml" (buildDocumentXML title paragraphs)

/-- `docx.Build`: the archive written for one article (chunking applied
to the content, filename from `safeFilename`). -/
def buildArchive (title content : List Char) : ZipArchive :=
  writeDocx title (buildChunks content)

/-- The output file name `safeFilename(title) + ".docx"` used by
`docx.Build`, as bytes. -/
def buildFileName (title : List Char) : List Nat :=
  safeFilename title ++ utf8Encode ".docx".data

/-! ## `internal/wiki`: article fetch (`FetchArticle`)

The JSON response of the fetch query maps page ids to page records; the
Go code ranges over that map and returns the first record, or the
not-found error when the map is empty. The response is modelled as the
list of its page records. -/

structure Article where
  title : List Char
  content : List Char
deriving DecidableEq

structure PageRecord where
  title : List Char
  extract : List Char
deriving DecidableEq

structure APIResponse where
  pages : List PageRecord
deriving DecidableEq

/-- `FetchArticle` decoding of a (status-200, well-formed) response:
first page record wins; empty map is the `article not found` error.
The requested title is only used to build the request URL. -/
def fetchArticle (requested : List Char) (resp : APIResponse) : Option Article :=
  match requested, resp.pages with
  | _, [] => none
  | _, p :: _ => some ⟨p.title, p.extract⟩

/-- `processArticle` (main): fetch, then `docx.Build(article.Title, …)`.
Returns the byte name of the file written, or `none` on fetch failure. -/
def processArticleFileName (requested : List Char) (resp : APIResponse) : Option (List Nat) :=
  (fetchArticle requested resp).map (fun a => buildFileName a.title)

/-! ## `internal/wiki`: random title collection (`GetRandomTitles`)

The HTTP implementation (the one with the `3*limit` attempt bound): a
loop bounded by `maxAttempts := limit * 3`, deduplicating into
`uniqueTitles` while appending to `result`, stopping early on a zero
result batch or an error. The network is an oracle from the attempt
index to a batch: `none` models a transport/status/decode error. -/

structure RandOutcome where
  result : List String
  calls : Nat
  sawEmpty : Bool
  errored : Bool
deriving DecidableEq

/-- The inner `for _, r := range res.Query.Random` loop: skip titles
already collected, append new ones, break once `limit` is reached. -/
def addBatch (limit : Int) (acc : List String) : List String → List String
  | [] => acc
  | t :: ts =>
    if acc.contains t then addBatch limit acc ts
    else
      if limit ≤ ((acc ++ [t]).length : Int) then acc ++ [t]
      else addBatch limit (acc ++ [t]) ts

/-- The outer `for len(uniqueTitles) < limit && attempts < maxAttempts`
loop; `fuel` is `maxAttempts - attempts`. -/
def getRandomLoop (oracle : Nat → Option (List String)) (limit : Int) :
    Nat → RandOutcome → RandOutcome
  | 0, st => st
  | fuel + 1, st =>
    if (st.result.length : Int) < limit then
      match oracle st.calls with
      | none => { st with calls := st.calls + 1, errored := true }
      | some batch =>
        if batch.isEmpty then { st with calls := st.calls + 1, sawEmpty := true }
        else
          getRandomLoop oracle limit fuel
            { st with calls := st.calls + 1, result := addBatch limit st.result batch }
    else st

/-- `GetRandomTitles(limit)` against a response oracle. -/
def getRandomTitles (oracle : Nat → Option (List String)) (limit : Int) : RandOutcome :=
  getRandomLoop oracle limit (3 * limit).toNat ⟨[], 0, false, false⟩

/-! ## `main`: title file reading and worker pool -/

/-- `readTitlesFromFile`, applied to the scanned lines: trim each line
(`line := strings.TrimSpace(…)`), skip it when empty or starting with
`#`, append the trimmed line. -/
def readTitlesFromFile (lines : List (List Char)) : List (List Char) :=
  lines.filterMap (fun raw =>
    if (goTrimSpace raw).isEmpty || ['#'].isPrefixOf (goTrimSpace raw) then none
    else some (goTrimSpace raw))

/-- `for i := 0; i < *workers; i++ { go … }`: the number of worker
goroutines main spawns for a configured worker count. No validation or
clamping is applied anywhere before the loop. -/
def spawnedWorkers (w : Int) : Nat :=
  w.toNat

/-- Outcome of the worker pool on a pre-populated, closed title channel:
with at least one worker every queued title is eventually processed
(workers drain the closed channel); with zero workers `wg.Wait()` returns
at once and nothing is processed. -/
def poolProcessedCount (w : Int) (titles : List String) : Nat :=
  if spawnedWorkers w = 0 then 0 else titles.length

end WikiTwoDocx

namespace WikiTwoDocx

/-! ## Claim C3: the archive holds exactly the three named entries -/

/-- C3: for every article (title and chunk list) handed to the Document
Packager, the produced archive contains exactly three entries — the
content-type manifest `[Content_Types].xml`, the root relationship
manifest `_rels/.rels`, and the document body `word/document.xml` — in
that order and nothing else. -/
theorem C3_archive_exactly_three_entries (title : List Char) (paragraphs : List (List Char)) :
    (writeDocx title paragraphs).entries.map Prod.fst =
      ["[Content_Types].xml", "_rels/.rels", "word/document.xml"] ∧
    (writeDocx title paragraphs).entries.length = 3 := by
  constructor <;> rfl

/-! ## Claim C8: worker counts ≤ 0 are neither rejected nor clamped -/

/-- C8 (code evaluated at the failing input): for the configured worker
counts `0` and `-3`, main spawns zero workers — no rejection, no clamp to
one — and a pending two-title queue is left undrained, so the pool does
silently run with zero workers, contrary to the claim. -/
theorem C8_zero_workers_spawned :
    spawnedWorkers 0 = 0 ∧ spawnedWorkers (-3) = 0 ∧
    poolProcessedCount 0 ["Go", "Lean"] = 0 := by
  exact ⟨rfl, rfl, rfl⟩

/-! ## Claim C9: output file named after the canonical API title -/

/-- C9: for every successfully processed article, the output file name is
`safeFilename` of the title carried by the API response's page record —
the canonical, redirect-resolved title — plus `.docx`, and it does not
depend on the requested title at all: requesting the same response under
any other title yields the same name. -/
theorem C9_filename_from_canonical_title (requested : List Char) (resp : APIResponse)
    (p : PageRecord) (rest : List PageRecord) (h : resp.pages = p :: rest) :
    processArticleFileName requested resp = some (buildFileName p.title) ∧
    ∀ requested₂ : List Char,
      processArticleFileName requested₂ resp = processArticleFileName requested resp := by
  refine ⟨?_, fun requested₂ => ?_⟩ <;>
    simp [processArticleFileName, fetchArticle, h]

/-- C9 witness: a concrete redirecting request — asking for `"UK"` while
the canonical record is titled `"United Kingdom"` — is filed under the
canonical title. -/
theorem C9_filename_from_canonical_title_witness :
    processArticleFileName "UK".data ⟨[⟨"United Kingdom".data, "text".data⟩]⟩ =
      some (buildFileName "United Kingdom".data) ∧
    ∀ requested₂ : List Char,
      processArticleFileName requested₂ ⟨[⟨"United Kingdom".data, "text".data⟩]⟩ =
        processArticleFileName "UK".data ⟨[⟨"United Kingdom".data, "text".data⟩]⟩ :=
  C9_filename_from_canonical_title "UK".data ⟨[⟨"United Kingdom".data, "text".data⟩]⟩
    ⟨"United Kingdom".data, "text".data⟩ [] rfl

/-! ## Claim C10: non-positive limits return empty with no request -/

/-- C10: for every limit ≤ 0 and every network behaviour,
`GetRandomTitles` returns the empty title list with no error having
issued zero network requests (`maxAttempts = 3·limit ≤ 0`, so the loop
body never runs). -/
theorem C10_nonpositive_limit_no_request (oracle : Nat → Option (List String))
    (limit : Int) (h : limit ≤ 0) :
    getRandomTitles oracle limit = ⟨[], 0, false, false⟩ := by
  have h3 : (3 * limit).toNat = 0 := Int.toNat_of_nonpos (by omega)
  rw [getRandomTitles, h3, getRandomLoop]

/-- C10 witness: limit `-1` against an always-failing endpoint: empty
result, no calls, no error. -/
theorem C10_nonpositive_limit_no_request_witness :
    getRandomTitles (fun _ => none) (-1) = ⟨[], 0, false, false⟩ :=
  C10_nonpositive_limit_no_request (fun _ => none) (-1) (by decide)

/-! ## Claim C7: file-mode line filtering -/

/-- Modelled from the claim's words: skip a line iff it is all
whitespace or its first non-whitespace character is `#`; other lines
contribute their trimmed text, duplicates and order preserved. -/
def readTitlesSpec (lines : List (List Char)) : List (List Char) :=
  lines.filterMap (fun raw =>
    if raw.all goIsSpace ∨ (raw.dropWhile goIsSpace).head? = some '#' then none
    else some (goTrimSpace raw))

theorem dropWhile_all_eq_nil (p : α → Bool) (l : List α)
    (h : (l.dropWhile p).all p = true) : l.dropWhile p = [] := by
  induction l with
  | nil => rfl
  | cons c rest ih =>
    rw [List.dropWhile_cons]
    split
    · exact ih (by rwa [List.dropWhile_cons, if_pos (by assumption)] at h)
    · rw [List.dropWhile_cons, if_neg (by assumption)] at h
      simp only [List.all_cons, Bool.and_eq_true] at h
      exact absurd h.1 (by assumption)

theorem dropEnd_eq_nil_iff (p : α → Bool) (l : List α) :
    dropEnd p l = [] ↔ l.all p = true := by
  rw [dropEnd, List.reverse_eq_nil_iff, List.dropWhile_eq_nil_iff, List.all_eq_true]
  constructor
  · intro h x hx
    exact h x (List.mem_reverse.mpr hx)
  · intro h x hx
    exact h x (List.mem_reverse.mp hx)

theorem goTrimSpace_eq_nil_iff (l : List Char) :
    goTrimSpace l = [] ↔ l.all goIsSpace = true := by
  rw [goTrimSpace, dropEnd_eq_nil_iff]
  constructor
  · intro h
    have hnil := dropWhile_all_eq_nil goIsSpace l h
    rw [List.dropWhile_eq_nil_iff] at hnil
    simpa [List.all_eq_true] using hnil
  · intro h
    have hnil : l.dropWhile goIsSpace = [] := by
      rw [List.dropWhile_eq_nil_iff]
      intro x hx
      exact (List.all_eq_true.mp h) x hx
    rw [hnil]
    rfl

/-- `dropEnd` keeps the head of a nonempty result: it is a prefix. -/
theorem dropEnd_initial (p : α → Bool) (l : List α) : dropEnd p l <+: l := by
  have h := List.reverse_prefix.mpr (List.dropWhile_suffix (l := l.reverse) p)
  rwa [List.reverse_reverse] at h

theorem goTrimSpace_head? (l : List Char) (h : goTrimSpace l ≠ []) :
    (goTrimSpace l).head? = (l.dropWhile goIsSpace).head? := by
  rw [goTrimSpace] at h ⊢
  obtain ⟨t, ht⟩ := dropEnd_initial goIsSpace (l.dropWhile goIsSpace)
  cases hd : dropEnd goIsSpace (l.dropWhile goIsSpace) with
  | nil => exact absurd hd h
  | cons c cs =>
    rw [hd] at ht
    rw [← ht]
    rfl

theorem hashPrefix_iff_head (t : List Char) :
    (['#'].isPrefixOf t) = true ↔ t.head? = some '#' := by
  cases t with
  | nil => simp [List.isPrefixOf]
  | cons c cs =>
    have h1 : (['#'].isPrefixOf (c :: cs)) = ('#' == c) := by
      simp [List.isPrefixOf]
    rw [h1, List.head?_cons]
    constructor
    · intro h
      rw [Option.some_inj]
      exact (beq_iff_eq.mp h).symm
    · intro h
      exact beq_iff_eq.mpr (Option.some_inj.mp h).symm

/-- C7 counterexample: the line `"  A "` is not blank and does not start
with `#`, yet the produced title is the trimmed `"A"`, not the verbatim
line. -/
theorem C7_counterexample_trimmed_not_verbatim :
    readTitlesFromFile ["  A ".data] = ["A".data] ∧
    readTitlesFromFile ["  A ".data] ≠ ["  A ".data] := by
  constructor
  · rfl
  · decide

/-- C7 amended: a line is skipped exactly when, after trimming
surrounding whitespace, it is empty or its first non-whitespace character
is `#`; every other line is taken as a title *after trimming surrounding
whitespace* (not verbatim), with duplicates preserved and original order
preserved. -/
theorem C7_line_filter_amended (lines : List (List Char)) :
    readTitlesFromFile lines = readTitlesSpec lines := by
  rw [readTitlesFromFile, readTitlesSpec]
  apply List.filterMap_congr
  intro raw _
  by_cases hall : raw.all goIsSpace = true
  · have hnil : goTrimSpace raw = [] := (goTrimSpace_eq_nil_iff raw).mpr hall
    rw [hnil, if_pos (Or.inl hall)]
    rfl
  · have hne : goTrimSpace raw ≠ [] := fun hc => hall ((goTrimSpace_eq_nil_iff raw).mp hc)
    have hhead := goTrimSpace_head? raw hne
    have hempty : (goTrimSpace raw).isEmpty = false := by
      cases hg : goTrimSpace raw with
      | nil => exact absurd hg hne
      | cons c cs => rfl
    by_cases hhash : (raw.dropWhile goIsSpace).head? = some '#'
    · have hp : (['#'].isPrefixOf (goTrimSpace raw)) = true :=
        (hashPrefix_iff_head _).mpr (hhead.trans hhash)
      have hcond : ((goTrimSpace raw).isEmpty || ['#'].isPrefixOf (goTrimSpace raw)) = true := by
        rw [hempty, hp]
        rfl
      rw [if_pos hcond, if_pos (Or.inr hhash)]
    · have hp : (['#'].isPrefixOf (goTrimSpace raw)) = false := by
        rw [Bool.eq_false_iff]
        intro hc
        exact hhash (hhead.symm.trans ((hashPrefix_iff_head _).mp hc))
      have hcond : ((goTrimSpace raw).isEmpty || ['#'].isPrefixOf (goTrimSpace raw)) = false := by
        rw [hempty, hp]
        rfl
      rw [if_neg (by rw [hcond]; exact Bool.false_ne_true),
        if_neg (by rintro (h1 | h2); exact hall h1; exact hhash h2)]

/-! ## Claim C6: bounds of the random-title collection loop -/

theorem addBatch_length_le (limit : Int) (acc : List String) (ts : List String)
    (hacc : (acc.length : Int) < limit) :
    ((addBatch limit acc ts).length : Int) ≤ limit := by
  induction ts generalizing acc with
  | nil => rw [addBatch]; omega
  | cons t ts ih =>
    rw [addBatch]
    split
    · exact ih acc hacc
    · split
      · simpa using hacc
      · exact ih (acc ++ [t]) (by omega)

theorem addBatch_nodup (limit : Int) (acc : List String) (ts : List String)
    (hacc : acc.Nodup) : (addBatch limit acc ts).Nodup := by
  induction ts generalizing acc with
  | nil => rw [addBatch]; exact hacc
  | cons t ts ih =>
    rw [addBatch]
    split
    · exact ih acc hacc
    · have hmem : t ∉ acc := by
        intro hm
        exact absurd (List.elem_eq_true_of_mem hm) (by assumption)
      have hacc2 : (acc ++ [t]).Nodup := by
        rw [List.nodup_append]
        exact ⟨hacc, List.nodup_singleton t, by
          intro a ha hb
          rw [List.mem_singleton] at hb
          exact hmem (hb ▸ ha)⟩
      split
      · exact hacc2
      · exact ih (acc ++ [t]) hacc2

theorem getRandomLoop_stop (oracle : Nat → Option (List String)) (limit : Int)
    (fuel : Nat) (st : RandOutcome) (h : ¬ ((st.result.length : Int) < limit)) :
    getRandomLoop oracle limit (fuel + 1) st = st := by
  rw [getRandomLoop, if_neg h]

theorem getRandomLoop_err (oracle : Nat → Option (List String)) (limit : Int)
    (fuel : Nat) (st : RandOutcome) (hc : (st.result.length : Int) < limit)
    (ho : oracle st.calls = none) :
    getRandomLoop oracle limit (fuel + 1) st =
      { st with calls := st.calls + 1, errored := true } := by
  rw [getRandomLoop, if_pos hc, ho]

theorem getRandomLoop_empty (oracle : Nat → Option (List String)) (limit : Int)
    (fuel : Nat) (st : RandOutcome) (batch : List String)
    (hc : (st.result.length : Int) < limit) (ho : oracle st.calls = some batch)
    (hb : batch.isEmpty = true) :
    getRandomLoop oracle limit (fuel + 1) st =
      { st with calls := st.calls + 1, sawEmpty := true } := by
  rw [getRandomLoop, if_pos hc, ho]
  simp [hb]

theorem getRandomLoop_step (oracle : Nat → Option (List String)) (limit : Int)
    (fuel : Nat) (st : RandOutcome) (batch : List String)
    (hc : (st.result.length : Int) < limit) (ho : oracle st.calls = some batch)
    (hb : ¬ batch.isEmpty = true) :
    getRandomLoop oracle limit (fuel + 1) st =
      getRandomLoop oracle limit fuel
        { st with calls := st.calls + 1, result := addBatch limit st.result batch } := by
  rw [getRandomLoop, if_pos hc, ho]
  simp [hb]

theorem getRandomLoop_length_le (oracle : Nat → Option (List String)) (limit : Int)
    (fuel : Nat) (st : RandOutcome) (hst : (st.result.length : Int) ≤ limit) :
    (((getRandomLoop oracle limit fuel st).result.length : Int)) ≤ limit := by
  induction fuel generalizing st with
  | zero => rw [getRandomLoop]; exact hst
  | succ fuel ih =>
    by_cases hc : (st.result.length : Int) < limit
    · cases ho : oracle st.calls with
      | none => rw [getRandomLoop_err oracle limit fuel st hc ho]; exact hst
      | some batch =>
        by_cases hb : batch.isEmpty = true
        · rw [getRandomLoop_empty oracle limit fuel st batch hc ho hb]; exact hst
        · rw [getRandomLoop_step oracle limit fuel st batch hc ho hb]
          exact ih _ (addBatch_length_le limit st.result batch hc)
    · rw [getRandomLoop_stop oracle limit fuel st hc]; exact hst

theorem getRandomLoop_nodup (oracle : Nat → Option (List String)) (limit : Int)
    (fuel : Nat) (st : RandOutcome) (hst : st.result.Nodup) :
    ((getRandomLoop oracle limit fuel st).result).Nodup := by
  induction fuel generalizing st with
  | zero => rw [getRandomLoop]; exact hst
  | succ fuel ih =>
    by_cases hc : (st.result.length : Int) < limit
    · cases ho : oracle st.calls with
      | none => rw [getRandomLoop_err oracle limit fuel st hc ho]; exact hst
      | some batch =>
        by_cases hb : batch.isEmpty = true
        · rw [getRandomLoop_empty oracle limit fuel st batch hc ho hb]; exact hst
        · rw [getRandomLoop_step oracle limit fuel st batch hc ho hb]
          exact ih _ (addBatch_nodup limit st.result batch hst)
    · rw [getRandomLoop_stop oracle limit fuel st hc]; exact hst

theorem getRandomLoop_calls_le (oracle : Nat → Option (List String)) (limit : Int)
    (fuel : Nat) (st : RandOutcome) :
    (getRandomLoop oracle limit fuel st).calls ≤ st.calls + fuel := by
  induction fuel generalizing st with
  | zero => rw [getRandomLoop]; omega
  | succ fuel ih =>
    by_cases hc : (st.result.length : Int) < limit
    · cases ho : oracle st.calls with
      | none => rw [getRandomLoop_err oracle limit fuel st hc ho]; dsimp only; omega
      | some batch =>
        by_cases hb : batch.isEmpty = true
        · rw [getRandomLoop_empty oracle limit fuel st batch hc ho hb]; dsimp only; omega
        · rw [getRandomLoop_step oracle limit fuel st batch hc ho hb]
          refine le_trans (ih _) ?_
          dsimp only
          omega
    · rw [getRandomLoop_stop oracle limit fuel st hc]; omega

theorem getRandomLoop_shortfall (oracle : Nat → Option (List String)) (limit : Int)
    (fuel : Nat) (st : RandOutcome)
    (herr : (getRandomLoop oracle limit fuel st).errored = false)
    (hlt : (((getRandomLoop oracle limit fuel st).result.length : Int)) < limit) :
    (getRandomLoop oracle limit fuel st).sawEmpty = true ∨
      (getRandomLoop oracle limit fuel st).calls = st.calls + fuel := by
  induction fuel generalizing st with
  | zero => rw [getRandomLoop]; right; omega
  | succ fuel ih =>
    by_cases hc : (st.result.length : Int) < limit
    · cases ho : oracle st.calls with
      | none =>
        rw [getRandomLoop_err oracle limit fuel st hc ho] at herr
        exact absurd herr (by simp)
      | some batch =>
        by_cases hb : batch.isEmpty = true
        · rw [getRandomLoop_empty oracle limit fuel st batch hc ho hb]
          left
          rfl
        · rw [getRandomLoop_step oracle limit fuel st batch hc ho hb] at herr hlt ⊢
          rcases ih _ herr hlt with h | h
          · exact Or.inl h
          · right
            rw [h]
            dsimp only
            omega
    · rw [getRandomLoop_stop oracle limit fuel st hc] at hlt
      exact absurd hlt hc

/-- C6: for every response behaviour and every requested count `n`,
`GetRandomTitles(n)` returns at most `n` titles, all pairwise distinct,
issues at most `3·n` requests (so it cannot loop forever), and — absent a
transport/API error — returns fewer than `n` only when some batch came
back empty (endpoint exhausted) or the `3·n` attempt bound was fully
consumed. -/
theorem C6_random_titles_bounds (oracle : Nat → Option (List String)) (n : Nat) :
    (getRandomTitles oracle (n : Int)).result.length ≤ n ∧
    (getRandomTitles oracle (n : Int)).result.Nodup ∧
    (getRandomTitles oracle (n : Int)).calls ≤ 3 * n ∧
    ((getRandomTitles oracle (n : Int)).errored = false →
      (getRandomTitles oracle (n : Int)).result.length < n →
      (getRandomTitles oracle (n : Int)).sawEmpty = true ∨
        (getRandomTitles oracle (n : Int)).calls = 3 * n) := by
  have hfuel : ((3 * (n : Int))).toNat = 3 * n := by
    rw [show (3 * (n : Int)) = ((3 * n : Nat) : Int) by push_cast; ring]
    exact Int.toNat_natCast _
  refine ⟨?_, ?_, ?_, ?_⟩
  · have := getRandomLoop_length_le oracle (n : Int) ((3 * (n : Int)).toNat)
      ⟨[], 0, false, false⟩ (by simp)
    rw [getRandomTitles]
    exact_mod_cast this
  · exact getRandomLoop_nodup oracle (n : Int) _ _ List.nodup_nil
  · have := getRandomLoop_calls_le oracle (n : Int) ((3 * (n : Int)).toNat)
      ⟨[], 0, false, false⟩
    rw [getRandomTitles, hfuel]
    rw [hfuel] at this
    simpa using this
  · intro herr hlt
    have := getRandomLoop_shortfall oracle (n : Int) ((3 * (n : Int)).toNat)
      ⟨[], 0, false, false⟩ herr (by exact_mod_cast hlt)
    rw [getRandomTitles, hfuel]
    rw [hfuel] at this
    simpa using this

/-! ## Claim C4: sanitization — runs, trim, truncation

The claim describes a character-level pipeline ending in "truncate to at
most 200 characters"; the code slices 200 *bytes*. The character-level
pipeline is modelled from the claim's words, the byte-level one from the
source, and the two are compared. -/

/-- Modelled from the claim's words: a character of the unsafe set. -/
def isUnsafeChar (c : Char) : Bool :=
  c == '\\' || c == '/' || c == ':' || c == '*' || c == '?' ||
  c == '"' || c == '<' || c == '>' || c == '|' || c == ' '

/-- Character-level run replacement (claim's step 1). -/
def replaceRunsCharAux (inRun : Bool) : List Char → List Char
  | [] => []
  | c :: rest =>
    if isUnsafeChar c then
      if inRun then replaceRunsCharAux true rest
      else '_' :: replaceRunsCharAux true rest
    else c :: replaceRunsCharAux false rest

def replaceRunsChar (l : List Char) : List Char :=
  replaceRunsCharAux false l

/-- Character-level underscore trim (claim's step 2). -/
def trimUnderChar (l : List Char) : List Char :=
  dropEnd (· == '_') (l.dropWhile (· == '_'))

/-- The sanitizer the claim describes: runs → `_`, trim `_`, truncate to
at most 200 *characters*. -/
def sanitizeSpecChars (title : List Char) : List Char :=
  if 200 < (trimUnderChar (replaceRunsChar title)).length then
    (trimUnderChar (replaceRunsChar title)).take 200
  else trimUnderChar (replaceRunsChar title)

theorem char_toNat_inj {c d : Char} (h : c.toNat = d.toNat) : c = d := by
  have hc := Char.ofNat_toNat c
  rw [← hc, h, Char.ofNat_toNat]

theorem utf8Encode_nil : utf8Encode [] = [] := rfl

theorem utf8Encode_cons (c : Char) (s : List Char) :
    utf8Encode (c :: s) = utf8Bytes c ++ utf8Encode s := by
  simp [utf8Encode]

theorem utf8Encode_append (s t : List Char) :
    utf8Encode (s ++ t) = utf8Encode s ++ utf8Encode t := by
  simp [utf8Encode]

theorem isUnsafeByte_le {b : Nat} (h : isUnsafeByte b = true) : b ≤ 124 := by
  simp only [isUnsafeByte, Bool.or_eq_true, beq_iff_eq] at h
  omega

theorem utf8Bytes_ascii {c : Char} (h : c.toNat < 128) : utf8Bytes c = [c.toNat] := by
  rw [utf8Bytes, if_pos h]

theorem utf8Bytes_high {c : Char} (h : 128 ≤ c.toNat) :
    ∀ b ∈ utf8Bytes c, 128 ≤ b := by
  intro b hb
  rw [utf8Bytes] at hb
  split at hb
  · omega
  · split at hb
    · simp only [List.mem_cons, List.mem_singleton, List.not_mem_nil, or_false] at hb
      rcases hb with h1 | h1 <;> omega
    · split at hb
      · simp only [List.mem_cons, List.mem_singleton, List.not_mem_nil, or_false] at hb
        rcases hb with h1 | h1 | h1 <;> omega
      · simp only [List.mem_cons, List.mem_singleton, List.not_mem_nil, or_false] at hb
        rcases hb with h1 | h1 | h1 | h1 <;> omega

/-- The leading byte of a non-ASCII character's encoding is ≥ 0xC0. -/
theorem utf8Bytes_head_high {c : Char} (h : 128 ≤ c.toNat) :
    ∃ b0 bs, utf8Bytes c = b0 :: bs ∧ 192 ≤ b0 := by
  rw [utf8Bytes]
  split
  · omega
  · split
    · exact ⟨_, _, rfl, by omega⟩
    · split
      · exact ⟨_, _, rfl, by omega⟩
      · exact ⟨_, _, rfl, by omega⟩

/-- Decomposition of a character's encoding: nonempty, with an explicit
last byte that is `c.toNat` for ASCII and a continuation byte otherwise. -/
theorem utf8Bytes_last (c : Char) :
    ∃ init last, utf8Bytes c = init ++ [last] ∧
      (c.toNat < 128 → last = c.toNat) ∧ (128 ≤ c.toNat → 128 ≤ last) := by
  rw [utf8Bytes]
  split
  · exact ⟨[], c.toNat, rfl, fun _ => rfl, fun h => by omega⟩
  · split
    · exact ⟨[0xC0 + c.toNat / 64], 0x80 + c.toNat % 64, rfl, fun h => by omega,
        fun _ => by omega⟩
    · split
      · exact ⟨[0xE0 + c.toNat / 4096, 0x80 + (c.toNat / 64) % 64], 0x80 + c.toNat % 64,
          rfl, fun h => by omega, fun _ => by omega⟩
      · exact ⟨[0xF0 + c.toNat / 262144, 0x80 + (c.toNat / 4096) % 64,
          0x80 + (c.toNat / 64) % 64], 0x80 + c.toNat % 64, rfl,
          fun h => by omega, fun _ => by omega⟩

theorem utf8Bytes_ne_nil (c : Char) : utf8Bytes c ≠ [] := by
  obtain ⟨init, last, heq, -, -⟩ := utf8Bytes_last c
  rw [heq]
  simp

/-- A character whose code point is an unsafe byte is itself unsafe
(all unsafe bytes are ASCII). -/
theorem isUnsafeChar_of_byte {c : Char} (h : isUnsafeByte c.toNat = true) :
    isUnsafeChar c = true := by
  simp only [isUnsafeByte, Bool.or_eq_true, beq_iff_eq] at h
  rcases h with ((((((((h | h) | h) | h) | h) | h) | h) | h) | h) | h
  · rw [char_toNat_inj (show c.toNat = Char.toNat '\\' by rw [h]; decide)]; decide
  · rw [char_toNat_inj (show c.toNat = Char.toNat '/' by rw [h]; decide)]; decide
  · rw [char_toNat_inj (show c.toNat = Char.toNat ':' by rw [h]; decide)]; decide
  · rw [char_toNat_inj (show c.toNat = Char.toNat '*' by rw [h]; decide)]; decide
  · rw [char_toNat_inj (show c.toNat = Char.toNat '?' by rw [h]; decide)]; decide
  · rw [char_toNat_inj (show c.toNat = Char.toNat '"' by rw [h]; decide)]; decide
  · rw [char_toNat_inj (show c.toNat = Char.toNat '<' by rw [h]; decide)]; decide
  · rw [char_toNat_inj (show c.toNat = Char.toNat '>' by rw [h]; decide)]; decide
  · rw [char_toNat_inj (show c.toNat = Char.toNat '|' by rw [h]; decide)]; decide
  · rw [char_toNat_inj (show c.toNat = Char.toNat ' ' by rw [h]; decide)]; decide

theorem unsafeChar_ascii {c : Char} (h : isUnsafeChar c = true) :
    utf8Bytes c = [c.toNat] ∧ isUnsafeByte c.toNat = true := by
  simp only [isUnsafeChar, Bool.or_eq_true, beq_iff_eq] at h
  rcases h with ((((((((h | h) | h) | h) | h) | h) | h) | h) | h) | h <;> subst h <;>
    exact ⟨rfl, rfl⟩

theorem utf8Bytes_all_safe {c : Char} (h : isUnsafeChar c = false) :
    ∀ b ∈ utf8Bytes c, isUnsafeByte b = false := by
  intro b hb
  by_cases hc : c.toNat < 128
  · rw [utf8Bytes_ascii hc, List.mem_singleton] at hb
    subst hb
    rw [Bool.eq_false_iff]
    intro hu
    rw [isUnsafeChar_of_byte hu] at h
    cases h
  · have hhigh := utf8Bytes_high (c := c) (by omega) b hb
    rw [Bool.eq_false_iff]
    intro hu
    have := isUnsafeByte_le hu
    omega

/-- A nonempty block of safe bytes passes through `replaceRunsAux`
unchanged and resets the run flag. -/
theorem replaceRunsAux_safe_append (bs z : List Nat) (flag : Bool)
    (h : ∀ b ∈ bs, isUnsafeByte b = false) (hne : bs ≠ []) :
    replaceRunsAux flag (bs ++ z) = bs ++ replaceRunsAux false z := by
  induction bs generalizing flag with
  | nil => exact absurd rfl hne
  | cons b0 brest ihb =>
    rw [List.cons_append, replaceRunsAux,
      if_neg (by rw [h b0 (List.mem_cons_self b0 brest)]; exact Bool.false_ne_true)]
    by_cases hbr : brest = []
    · subst hbr
      rfl
    · rw [ihb false (fun x hx => h x (List.mem_cons_of_mem b0 hx)) hbr]
      rfl

/-- Replacement commutes with UTF-8 encoding: safe multi-byte sequences
pass through untouched, unsafe characters are single ASCII bytes. -/
theorem replaceRuns_encode (s : List Char) :
    ∀ flag, replaceRunsAux flag (utf8Encode s) = utf8Encode (replaceRunsCharAux flag s) := by
  induction s with
  | nil => intro flag; rfl
  | cons c cs ih =>
    intro flag
    rw [utf8Encode_cons, replaceRunsCharAux]
    by_cases hc : isUnsafeChar c = true
    · obtain ⟨hbytes, hbyte⟩ := unsafeChar_ascii hc
      rw [hbytes, List.singleton_append, replaceRunsAux, if_pos hbyte, if_pos hc]
      cases flag with
      | true =>
        rw [if_pos rfl, if_pos rfl]
        exact ih true
      | false =>
        rw [if_neg (by exact Bool.false_ne_true), if_neg (by exact Bool.false_ne_true),
          utf8Encode_cons, ih true]
        rfl
    · rw [Bool.not_eq_true] at hc
      have hsafe := utf8Bytes_all_safe hc
      rw [if_neg (by rw [hc]; exact Bool.false_ne_true),
        replaceRunsAux_safe_append (utf8Bytes c) (utf8Encode cs) flag hsafe (utf8Bytes_ne_nil c),
        utf8Encode_cons, ih false]

/-- The head byte of the encoding of a character other than `_` is not
the underscore byte. -/
theorem utf8Bytes_head_ne_under {c : Char} (hc : c ≠ '_') :
    ∃ b0 bs, utf8Bytes c = b0 :: bs ∧ ¬ b0 = 0x5F := by
  by_cases hlt : c.toNat < 128
  · refine ⟨c.toNat, [], utf8Bytes_ascii hlt, fun h => hc ?_⟩
    exact char_toNat_inj (by rw [h]; decide)
  · obtain ⟨b0, bs, heq, hb0⟩ := utf8Bytes_head_high (c := c) (by omega)
    exact ⟨b0, bs, heq, by omega⟩

theorem dropWhile_under_encode (s : List Char) :
    (utf8Encode s).dropWhile (· == 0x5F) = utf8Encode (s.dropWhile (· == '_')) := by
  induction s with
  | nil => rfl
  | cons c cs ih =>
    by_cases hc : c = '_'
    · subst hc
      rw [utf8Encode_cons, show utf8Bytes '_' = [0x5F] from rfl, List.singleton_append,
        List.dropWhile_cons, if_pos (by rfl), List.dropWhile_cons, if_pos (by rfl)]
      exact ih
    · obtain ⟨b0, bs, hb, hb0⟩ := utf8Bytes_head_ne_under hc
      rw [utf8Encode_cons, hb, List.cons_append, List.dropWhile_cons,
        if_neg (by simpa using hb0), List.dropWhile_cons, if_neg (by simpa using hc),
        utf8Encode_cons, hb, List.cons_append]

theorem dropEnd_append_singleton (p : α → Bool) (l : List α) (b : α) :
    dropEnd p (l ++ [b]) = if p b then dropEnd p l else l ++ [b] := by
  rw [dropEnd, List.reverse_append, List.reverse_singleton, List.singleton_append,
    List.dropWhile_cons]
  split
  · rfl
  · rw [List.reverse_cons, List.reverse_reverse]

theorem dropEnd_under_encode (s : List Char) :
    dropEnd (· == 0x5F) (utf8Encode s) = utf8Encode (dropEnd (· == '_') s) := by
  induction s using List.reverseRecOn with
  | nil => rfl
  | append_singleton s c ih =>
    rw [utf8Encode_append, show utf8Encode [c] = utf8Bytes c from by
      rw [utf8Encode_cons, utf8Encode_nil, List.append_nil]]
    by_cases hc : c = '_'
    · subst hc
      rw [show utf8Bytes '_' = [0x5F] from rfl, dropEnd_append_singleton,
        if_pos (by rfl), ih, dropEnd_append_singleton, if_pos (by rfl)]
    · obtain ⟨init, last, heq, hascii, hhigh⟩ := utf8Bytes_last c
      have hlast : ¬ last = 0x5F := by
        intro hcontra
        by_cases hlt : c.toNat < 128
        · exact hc (char_toNat_inj (by rw [← hascii hlt, hcontra]; decide))
        · have := hhigh (by omega)
          omega
      rw [heq, ← List.append_assoc, dropEnd_append_singleton,
        if_neg (by simpa using hlast), dropEnd_append_singleton,
        if_neg (by simpa using hc), utf8Encode_append, show utf8Encode [c] = utf8Bytes c from by
          rw [utf8Encode_cons, utf8Encode_nil, List.append_nil], heq, List.append_assoc]

theorem trimUnder_encode (s : List Char) :
    trimUnderB (utf8Encode s) = utf8Encode (trimUnderChar s) := by
  rw [trimUnderB, trimUnderChar, dropWhile_under_encode, dropEnd_under_encode]

set_option maxRecDepth 10000 in
/-- C4 counterexample: a title of 150 two-byte Cyrillic characters. The
claim's pipeline leaves it untouched (150 ≤ 200 characters); the code
cuts its 300-byte encoding to 200 bytes (100 characters). -/
theorem C4_counterexample_bytes_not_chars :
    safeFilename (List.replicate 150 'я') ≠
      utf8Encode (sanitizeSpecChars (List.replicate 150 'я')) ∧
    (safeFilename (List.replicate 150 'я')).length = 200 ∧
    (utf8Encode (sanitizeSpecChars (List.replicate 150 'я'))).length = 300 := by
  refine ⟨?_, ?_, ?_⟩ <;> decide

/-- C4 amended: sanitization replaces every run of characters from the
set `{\, /, :, *, ?, ", <, >, |, space}` with a single underscore, trims
leading and trailing underscores, then truncates the result to at most
200 **bytes** of its UTF-8 encoding (not 200 characters; the cut may
split a multi-byte character). -/
theorem C4_sanitize_amended (title : List Char) :
    safeFilename title = (utf8Encode (trimUnderChar (replaceRunsChar title))).take 200 := by
  rw [safeFilename, safeFilenameB, replaceRunsB, replaceRuns_encode title false,
    ← replaceRunsChar, trimUnder_encode]
  split
  · rfl
  · rw [List.take_of_length_le (by omega)]

/-! ## Claim C5: sanitization idempotence and safety -/

theorem replaceRunsAux_all_safe (flag : Bool) (l : List Nat) :
    ∀ b ∈ replaceRunsAux flag l, isUnsafeByte b = false := by
  induction l generalizing flag with
  | nil =>
    intro b hb
    rw [replaceRunsAux] at hb
    exact absurd hb (List.not_mem_nil b)
  | cons b0 rest ih =>
    intro b hb
    rw [replaceRunsAux] at hb
    split at hb
    · split at hb
      · exact ih true b hb
      · rcases List.mem_cons.mp hb with h95 | hmem
        · subst h95; decide
        · exact ih true b hmem
    · rcases List.mem_cons.mp hb with hb0 | hmem
      · subst hb0
        rename_i hneg
        rwa [Bool.not_eq_true] at hneg
      · exact ih false b hmem

theorem replaceRunsAux_nop (l : List Nat) (h : ∀ b ∈ l, isUnsafeByte b = false) :
    replaceRunsAux false l = l := by
  induction l with
  | nil => rfl
  | cons b rest ih =>
    rw [replaceRunsAux,
      if_neg (by rw [h b (List.mem_cons_self b rest)]; exact Bool.false_ne_true),
      ih (fun x hx => h x (List.mem_cons_of_mem b hx))]

theorem trimUnderB_sublist (x : List Nat) : List.Sublist (trimUnderB x) x :=
  ((dropEnd_initial _ _).sublist).trans (List.dropWhile_sublist _)

theorem safeFilenameB_sublist (l : List Nat) :
    List.Sublist (safeFilenameB l) (replaceRunsB l) := by
  rw [safeFilenameB]
  split
  · exact (List.take_sublist _ _).trans (trimUnderB_sublist _)
  · exact trimUnderB_sublist _

theorem safeFilenameB_bytes_safe (l : List Nat) :
    ∀ b ∈ safeFilenameB l, isUnsafeByte b = false :=
  fun b hb => replaceRunsAux_all_safe false l b ((safeFilenameB_sublist l).subset hb)

theorem safeFilenameB_length_le (l : List Nat) : (safeFilenameB l).length ≤ 200 := by
  rw [safeFilenameB]
  split
  · exact List.length_take_le _ _
  · omega

/-- Sanitizing twice only re-trims underscores: the second replacement
pass is a no-op (the output holds no unsafe byte), the second truncation
is a no-op (the output holds at most 200 bytes). -/
theorem sanitize_twice (l : List Nat) :
    safeFilenameB (safeFilenameB l) = trimUnderB (safeFilenameB l) := by
  have hnop : replaceRunsB (safeFilenameB l) = safeFilenameB l := by
    rw [replaceRunsB]
    exact replaceRunsAux_nop _ (safeFilenameB_bytes_safe l)
  have hlen : (trimUnderB (safeFilenameB l)).length ≤ 200 :=
    le_trans (trimUnderB_sublist _).length_le (safeFilenameB_length_le l)
  generalize hr : safeFilenameB l = r at hnop hlen ⊢
  rw [safeFilenameB, hnop, if_neg (by omega)]

theorem head?_take {n : Nat} (h : 0 < n) (l : List α) : (l.take n).head? = l.head? := by
  cases l with
  | nil => simp
  | cons c cs =>
    cases n with
    | zero => omega
    | succ m => rfl

theorem safeFilenameB_head? (l : List Nat) :
    (safeFilenameB l).head? = (trimUnderB (replaceRunsB l)).head? := by
  rw [safeFilenameB]
  split
  · exact head?_take (by omega) _
  · rfl

theorem head_dropWhile_not (p : α → Bool) (l : List α) {b : α} {bs : List α}
    (h : l.dropWhile p = b :: bs) : p b = false := by
  induction l with
  | nil => exact absurd h (by simp)
  | cons c rest ih =>
    rw [List.dropWhile_cons] at h
    split at h
    · exact ih h
    · cases h
      rename_i hneg
      rwa [Bool.not_eq_true] at hneg

theorem trimUnderB_head_not (x : List Nat) {b : Nat} {bs : List Nat}
    (h : trimUnderB x = b :: bs) : (b == 0x5F) = false := by
  rw [trimUnderB] at h
  obtain ⟨t, ht⟩ := dropEnd_initial (· == (0x5F : Nat)) (x.dropWhile (· == 0x5F))
  rw [h] at ht
  exact head_dropWhile_not (· == (0x5F : Nat)) x ht.symm

theorem dropWhile_eq_self (p : α → Bool) (l : List α)
    (h : ∀ b bs, l = b :: bs → p b = false) : l.dropWhile p = l := by
  cases l with
  | nil => rfl
  | cons c cs =>
    rw [List.dropWhile_cons, if_neg (by rw [h c cs rfl]; exact Bool.false_ne_true)]

theorem dropEnd_eq_self (p : α → Bool) (l : List α)
    (h : ∀ x, l.getLast? = some x → p x = false) : dropEnd p l = l := by
  induction l using List.reverseRecOn with
  | nil => rfl
  | append_singleton init b _ =>
    rw [dropEnd_append_singleton, if_neg (by rw [h b (by simp)]; exact Bool.false_ne_true)]

set_option maxRecDepth 10000 in
/-- C5 counterexample: (i) the title of 199 `a`s, an underscore, then 5
`a`s sanitizes to a 200-byte name ending in `_`, and sanitizing again
strips that underscore — idempotence fails; (ii) the non-empty input
`"_"` (underscore is not in the unsafe set, hence a safe character)
sanitizes to the empty name; (iii) `".."` sanitizes to itself, a
path-traversal name. -/
theorem C5_counterexample_idempotence_traversal :
    safeFilenameB (safeFilenameB
        (utf8Encode (List.replicate 199 'a' ++ '_' :: List.replicate 5 'a'))) ≠
      safeFilenameB (utf8Encode (List.replicate 199 'a' ++ '_' :: List.replicate 5 'a')) ∧
    safeFilename ['_'] = [] ∧
    safeFilename ['.', '.'] = [0x2E, 0x2E] := by
  refine ⟨?_, ?_, ?_⟩ <;> decide

/-- C5 amended: sanitizing twice equals sanitizing once followed by an
underscore re-trim, so sanitization is idempotent exactly when the
(possibly truncated) output does not end in an underscore — in
particular whenever no truncation occurs; and the output never contains
a path separator `/` or `\` (nor any other unsafe character), though for
non-empty inputs made of safe characters it can still be empty (`"_"`)
or the traversal name `".."`. -/
theorem C5_sanitize_props_amended :
    (∀ l : List Nat, safeFilenameB (safeFilenameB l) = trimUnderB (safeFilenameB l)) ∧
    (∀ l : List Nat, (∀ x, (safeFilenameB l).getLast? = some x → ¬ x = 0x5F) →
      safeFilenameB (safeFilenameB l) = safeFilenameB l) ∧
    (∀ l : List Nat, 0x2F ∉ safeFilenameB l ∧ 0x5C ∉ safeFilenameB l) := by
  refine ⟨sanitize_twice, ?_, ?_⟩
  · intro l hlast
    have h1 : (safeFilenameB l).dropWhile (· == 0x5F) = safeFilenameB l := by
      apply dropWhile_eq_self
      intro b bs hb
      have hh := safeFilenameB_head? l
      rw [hb] at hh
      cases ht : trimUnderB (replaceRunsB l) with
      | nil => rw [ht] at hh; exact absurd hh (by simp)
      | cons b' bs' =>
        rw [ht] at hh
        simp only [List.head?_cons, Option.some_inj] at hh
        rw [hh]
        exact trimUnderB_head_not _ ht
    have h2 : dropEnd (· == (0x5F : Nat)) (safeFilenameB l) = safeFilenameB l := by
      apply dropEnd_eq_self
      intro x hx
      rw [beq_eq_false_iff_ne]
      exact hlast x hx
    rw [sanitize_twice l, trimUnderB, h1, h2]
  · intro l
    constructor
    · intro hm
      have h2 := safeFilenameB_bytes_safe l 0x2F hm
      exact absurd h2 (by decide)
    · intro hm
      have h2 := safeFilenameB_bytes_safe l 0x5C hm
      exact absurd h2 (by decide)

/-- C5 witness: a short clean title is a fixed point of sanitization. -/
theorem C5_sanitize_props_amended_witness :
    safeFilenameB (safeFilenameB (utf8Encode "Lean proofs".data)) =
      safeFilenameB (utf8Encode "Lean proofs".data) :=
  C5_sanitize_props_amended.2.1 (utf8Encode "Lean proofs".data) (by decide)

/-- C6 witness: a concrete run — three distinct titles requested from an
endpoint that repeats one two-title batch — satisfies every clause. -/
theorem C6_random_titles_bounds_witness :
    (getRandomTitles (fun _ => some ["Go", "Lean"]) ((3 : Nat) : Int)).result.length ≤ 3 ∧
    (getRandomTitles (fun _ => some ["Go", "Lean"]) ((3 : Nat) : Int)).result.Nodup ∧
    (getRandomTitles (fun _ => some ["Go", "Lean"]) ((3 : Nat) : Int)).calls ≤ 3 * 3 ∧
    ((getRandomTitles (fun _ => some ["Go", "Lean"]) ((3 : Nat) : Int)).errored = false →
      (getRandomTitles (fun _ => some ["Go", "Lean"]) ((3 : Nat) : Int)).result.length < 3 →
      (getRandomTitles (fun _ => some ["Go", "Lean"]) ((3 : Nat) : Int)).sawEmpty = true ∨
        (getRandomTitles (fun _ => some ["Go", "Lean"]) ((3 : Nat) : Int)).calls = 3 * 3) :=
  C6_random_titles_bounds (fun _ => some ["Go", "Lean"]) 3

/-! ## Claim C2: paragraph chunking

`docx.Build` splits on the literal `"\n\n"`; the claim describes a split
on *maximal runs* of two or more newlines. The two pipelines agree after
trimming and dropping empties; `splitRuns` below is modelled from the
claim's words and compared with the source pipeline. -/

/-- Drop leading newline characters. -/
def dropNL : List Char → List Char
  | [] => []
  | c :: rest => if c = '\n' then dropNL rest else c :: rest

theorem dropNL_length (l : List Char) : (dropNL l).length ≤ l.length := by
  induction l with
  | nil => exact le_refl _
  | cons c rest ih =>
    rw [dropNL]
    split
    · exact le_trans ih (by simp)
    · exact le_refl _

/-- Modelled from the claim's words: split on each maximal run of two or
more consecutive newlines. -/
def splitRuns : List Char → List (List Char)
  | [] => [[]]
  | [c] => [[c]]
  | c1 :: c2 :: rest =>
    if c1 = '\n' ∧ c2 = '\n' then [] :: splitRuns (dropNL rest)
    else prependHead c1 (splitRuns (c2 :: rest))
termination_by l => l.length
decreasing_by
  all_goals simp only [List.length_cons]
  · have h := dropNL_length rest
    omega
  · omega

/-- Modelled from the claim's words: split on blank-line runs, trim,
drop empties, collapse remaining single newlines to spaces. -/
def chunkSpec (content : List Char) : List (List Char) :=
  (clean (splitRuns content)).map collapseNL

theorem clean_cons (x : List Char) (xs : List (List Char)) :
    clean (x :: xs) =
      if (goTrimSpace x).isEmpty then clean xs else goTrimSpace x :: clean xs := by
  rw [clean, List.map_cons, List.filter_cons]
  cases h : (goTrimSpace x).isEmpty with
  | true => rw [if_neg (by decide), if_pos rfl]; rfl
  | false => rw [if_pos (by decide), if_neg (by decide)]; rfl

theorem goTrimSpace_cons_space {c : Char} (hc : goIsSpace c = true) (p : List Char) :
    goTrimSpace (c :: p) = goTrimSpace p := by
  rw [goTrimSpace, goTrimSpace, List.dropWhile_cons, if_pos hc]

theorem clean_prependHead {c : Char} (hc : goIsSpace c = true) (X : List (List Char)) :
    clean (prependHead c X) = clean X := by
  cases X with
  | nil =>
    rw [prependHead, clean_cons, goTrimSpace_cons_space hc,
      show goTrimSpace [] = [] from rfl]
    rfl
  | cons p ps =>
    rw [prependHead, clean_cons, clean_cons, goTrimSpace_cons_space hc]

theorem clean_nil_cons (X : List (List Char)) : clean ([] :: X) = clean X := by
  rw [clean_cons]
  rfl

theorem splitRuns_nil : splitRuns [] = [[]] := by
  simp [splitRuns]

theorem splitRuns_single (c : Char) : splitRuns [c] = [[c]] := by
  simp [splitRuns]

theorem splitRuns_two_nl (rest : List Char) :
    splitRuns ('\n' :: '\n' :: rest) = [] :: splitRuns (dropNL rest) := by
  rw [splitRuns, if_pos ⟨rfl, rfl⟩]

theorem splitRuns_other (c1 c2 : Char) (rest : List Char)
    (h : ¬ (c1 = '\n' ∧ c2 = '\n')) :
    splitRuns (c1 :: c2 :: rest) = prependHead c1 (splitRuns (c2 :: rest)) := by
  rw [splitRuns, if_neg h]

theorem splitOnNN_two_nl (rest : List Char) :
    splitOnNN ('\n' :: '\n' :: rest) = [] :: splitOnNN rest := by
  rw [splitOnNN, if_pos ⟨rfl, rfl⟩]

theorem splitOnNN_other (c1 c2 : Char) (rest : List Char)
    (h : ¬ (c1 = '\n' ∧ c2 = '\n')) :
    splitOnNN (c1 :: c2 :: rest) = prependHead c1 (splitOnNN (c2 :: rest)) := by
  rw [splitOnNN, if_neg h]

/-- Auxiliary: under the induction hypothesis for sizes up to `n`,
dropping the leading newline run does not change the cleaned split. -/
theorem dropNL_clean_of (n : Nat)
    (H : ∀ x : List Char, x.length ≤ n → clean (splitRuns ('\n' :: x)) = clean (splitRuns x)) :
    ∀ y : List Char, y.length ≤ n → clean (splitRuns (dropNL y)) = clean (splitRuns y) := by
  intro y
  induction y with
  | nil => intro _; rfl
  | cons c y ihy =>
    intro hlen
    simp only [List.length_cons] at hlen
    by_cases hc : c = '\n'
    · subst hc
      rw [show dropNL ('\n' :: y) = dropNL y from by rw [dropNL, if_pos rfl]]
      rw [ihy (by omega)]
      exact (H y (by omega)).symm
    · rw [show dropNL (c :: y) = c :: y from by rw [dropNL, if_neg hc]]

/-- Extra leading newlines before a chunk do not change the cleaned
split: the newline is trimmed off the first piece. -/
theorem splitRuns_cons_nl_clean :
    ∀ (n : Nat) (x : List Char), x.length ≤ n →
      clean (splitRuns ('\n' :: x)) = clean (splitRuns x) := by
  intro n
  induction n with
  | zero =>
    intro x hx
    have hnil : x = [] := List.eq_nil_of_length_eq_zero (by omega)
    subst hnil
    rw [splitRuns_single, splitRuns_nil]
    decide
  | succ n ih =>
    intro x hx
    match x with
    | [] =>
      rw [splitRuns_single, splitRuns_nil]
      decide
    | c :: y =>
      simp only [List.length_cons] at hx
      by_cases hc : c = '\n'
      · subst hc
        rw [splitRuns_two_nl, clean_nil_cons, ih y (by omega)]
        exact dropNL_clean_of n ih y (by omega)
      · rw [splitRuns_other '\n' c y (fun hand => hc hand.2),
          clean_prependHead (by decide)]

/-- Both splits cut at the first `"\n\n"` occurrence, so they agree on
the first piece, and their tails agree after cleaning. -/
theorem split_same_head :
    ∀ (n : Nat) (content : List Char), content.length ≤ n →
      ∃ h tN tR, splitOnNN content = h :: tN ∧ splitRuns content = h :: tR ∧
        clean tN = clean tR := by
  intro n
  induction n with
  | zero =>
    intro content hc
    have hnil : content = [] := List.eq_nil_of_length_eq_zero (by omega)
    subst hnil
    exact ⟨[], [], [], rfl, splitRuns_nil, rfl⟩
  | succ n ih =>
    intro content hc
    match content with
    | [] => exact ⟨[], [], [], rfl, splitRuns_nil, rfl⟩
    | [c] => exact ⟨[c], [], [], rfl, splitRuns_single c, rfl⟩
    | c1 :: c2 :: rest =>
      simp only [List.length_cons] at hc
      by_cases hnn : c1 = '\n' ∧ c2 = '\n'
      · obtain ⟨h1, h2⟩ := hnn
        subst h1
        subst h2
        refine ⟨[], splitOnNN rest, splitRuns (dropNL rest),
          splitOnNN_two_nl rest, splitRuns_two_nl rest, ?_⟩
        obtain ⟨h', tN', tR', hN', hR', hc'⟩ := ih rest (by omega)
        have e1 : clean (splitOnNN rest) = clean (splitRuns rest) := by
          rw [hN', hR', clean_cons, clean_cons, hc']
        rw [e1]
        exact (dropNL_clean_of n (splitRuns_cons_nl_clean n) rest (by omega)).symm
      · obtain ⟨h', tN', tR', hN', hR', hc'⟩ := ih (c2 :: rest)
          (by simp only [List.length_cons]; omega)
        refine ⟨c1 :: h', tN', tR', ?_, ?_, hc'⟩
        · rw [splitOnNN_other c1 c2 rest hnn, hN', prependHead]
        · rw [splitRuns_other c1 c2 rest hnn, hR', prependHead]

theorem buildChunks_eq_chunkSpec (content : List Char) :
    buildChunks content = chunkSpec content := by
  obtain ⟨h, tN, tR, hN, hR, hc⟩ := split_same_head content.length content (le_refl _)
  rw [buildChunks, chunkSpec, hN, hR, clean_cons, clean_cons, hc]

/-- C2: the chunking of `docx.Build` splits on blank-line boundaries
(runs of two or more newlines), trims each chunk, drops chunks that are
empty after trimming, and collapses every remaining single newline of a
surviving chunk into one space, preserving all other characters; in
particular `"A\n\nB\nC\n\n\n\nD"` yields exactly
`["A", "B C", "D"]`. -/
theorem C2_paragraph_chunking :
    (∀ content : List Char, buildChunks content = chunkSpec content) ∧
    buildChunks "A\n\nB\nC\n\n\n\nD".data = ["A".data, "B C".data, "D".data] := by
  refine ⟨buildChunks_eq_chunkSpec, ?_⟩
  decide

/-! ## Claim C1: text content of the document body

The analysis side: a scanner that collects the contents of the
`<w:t xml:space="preserve">…</w:t>` text runs of an XML string and
undoes `xml.EscapeText`'s entities. -/

def openTagL : List Char := "<w:t xml:space=\"preserve\">".data

def closeTagL : List Char := "</w:t>".data

/-- Collect characters up to the closing `</w:t>` tag; also return what
follows the tag. -/
def takeRun : List Char → List Char × List Char
  | [] => ([], [])
  | c :: rest =>
    if closeTagL.isPrefixOf (c :: rest) then ([], (c :: rest).drop closeTagL.length)
    else ((c :: (takeRun rest).1), (takeRun rest).2)

/-- The entity (replacement character and entity length) found at the
head of the list, if any. -/
def entityAt (l : List Char) : Option (Char × Nat) :=
  if "&#34;".data.isPrefixOf l then some ('"', 5)
  else if "&#39;".data.isPrefixOf l then some ('\'', 5)
  else if "&amp;".data.isPrefixOf l then some ('&', 5)
  else if "&lt;".data.isPrefixOf l then some ('<', 4)
  else if "&gt;".data.isPrefixOf l then some ('>', 4)
  else if "&#x9;".data.isPrefixOf l then some ('\t', 5)
  else if "&#xA;".data.isPrefixOf l then some ('\n', 5)
  else if "&#xD;".data.isPrefixOf l then some ('\r', 5)
  else none

/-- Undo the eight entities `xml.EscapeText` emits (fuelled scanner). -/
def unescapeF : Nat → List Char → List Char
  | 0, _ => []
  | _ + 1, [] => []
  | f + 1, c :: rest =>
    match entityAt (c :: rest) with
    | some (r, k) => r :: unescapeF f ((c :: rest).drop k)
    | none => c :: unescapeF f rest

def unescape (l : List Char) : List Char := unescapeF l.length l

/-- Fuelled scanner for the text runs of the document. -/
def textRunsF : Nat → List Char → List (List Char)
  | 0, _ => []
  | _ + 1, [] => []
  | f + 1, c :: rest =>
    if openTagL.isPrefixOf (c :: rest) then
      unescape (takeRun ((c :: rest).drop openTagL.length)).1 ::
        textRunsF f (takeRun ((c :: rest).drop openTagL.length)).2
    else textRunsF f rest

/-- The unescaped contents of the text runs of an XML string, in order. -/
def textRuns (l : List Char) : List (List Char) := textRunsF l.length l

theorem isPrefixOf_self_append (p z : List Char) : p.isPrefixOf (p ++ z) = true := by
  rw [List.isPrefixOf_iff_prefix]
  exact List.prefix_append p z

theorem isPrefixOf_cons_false {a c : Char} (t l : List Char) (h : ¬ a = c) :
    ((a :: t).isPrefixOf (c :: l)) = false := by
  simp [List.isPrefixOf, h]

/-- A prefix test whose window fits inside `a` ignores the appended `z`. -/
theorem isPrefixOf_append_of_le (p : List Char) :
    ∀ (a z : List Char), p.length ≤ a.length →
      p.isPrefixOf (a ++ z) = p.isPrefixOf a := by
  induction p with
  | nil => intro a z _; simp [List.isPrefixOf]
  | cons x p' ih =>
    intro a z h
    cases a with
    | nil => simp at h
    | cons y a' =>
      show (x == y && p'.isPrefixOf (a' ++ z)) = (x == y && p'.isPrefixOf a')
      rw [ih a' z (by simp only [List.length_cons] at h; omega)]

theorem takeRun_snd_length (l : List Char) : (takeRun l).2.length ≤ l.length := by
  induction l with
  | nil => simp [takeRun]
  | cons c rest ih =>
    rw [takeRun]
    split
    · simp only [List.length_drop]
      omega
    · exact le_trans ih (by simp)

theorem takeRun_split (s : List Char) :
    ∀ z : List Char, '<' ∉ s → takeRun (s ++ (closeTagL ++ z)) = (s, z) := by
  induction s with
  | nil =>
    intro z _
    rw [List.nil_append,
      show closeTagL ++ z = '<' :: ("/w:t>".data ++ z) from rfl, takeRun,
      if_pos (by
        rw [show ('<' :: ("/w:t>".data ++ z)) = closeTagL ++ z from rfl]
        exact isPrefixOf_self_append _ _),
      show ('<' :: ("/w:t>".data ++ z)).drop closeTagL.length = z from by
        rw [show ('<' :: ("/w:t>".data ++ z)) = closeTagL ++ z from rfl]
        exact List.drop_left _ _]
  | cons c s' ih =>
    intro z h
    have hc : ¬ ('<' = c) := fun he => h (he ▸ List.mem_cons_self c s')
    rw [List.cons_append, takeRun,
      if_neg (by
        rw [show closeTagL = '<' :: "/w:t>".data from rfl,
          isPrefixOf_cons_false _ _ hc]
        exact Bool.false_ne_true),
      ih z (fun hm => h (List.mem_cons_of_mem c hm))]

theorem textRunsF_nil (f : Nat) : textRunsF f [] = [] := by
  cases f <;> rfl

theorem textRunsF_mono : ∀ (n : Nat) (l : List Char) (f g : Nat),
    l.length ≤ n → l.length ≤ f → l.length ≤ g → textRunsF f l = textRunsF g l := by
  intro n
  induction n with
  | zero =>
    intro l f g h1 _ _
    have hnil : l = [] := List.eq_nil_of_length_eq_zero (by omega)
    subst hnil
    rw [textRunsF_nil, textRunsF_nil]
  | succ n ih =>
    intro l f g h1 hf hg
    match l with
    | [] => rw [textRunsF_nil, textRunsF_nil]
    | c :: rest =>
      simp only [List.length_cons] at h1 hf hg
      obtain ⟨f', rfl⟩ : ∃ f', f = f' + 1 := ⟨f - 1, by omega⟩
      obtain ⟨g', rfl⟩ : ∃ g', g = g' + 1 := ⟨g - 1, by omega⟩
      rw [textRunsF, textRunsF]
      have h26 : 0 < openTagL.length := by decide
      by_cases hp : (openTagL.isPrefixOf (c :: rest)) = true
      · rw [if_pos hp, if_pos hp]
        have hdrop : ((c :: rest).drop openTagL.length).length ≤ rest.length := by
          rw [List.length_drop]
          simp only [List.length_cons]
          omega
        have htake := takeRun_snd_length ((c :: rest).drop openTagL.length)
        congr 1
        exact ih _ f' g' (by omega) (by omega) (by omega)
      · rw [if_neg hp, if_neg hp]
        exact ih rest f' g' (by omega) (by omega) (by omega)

theorem entityAt_bounds {l : List Char} {r : Char} {k : Nat}
    (he : entityAt l = some (r, k)) : 4 ≤ k ∧ k ≤ l.length := by
  have hlen : ∀ p : List Char, p.isPrefixOf l = true → p.length ≤ l.length := by
    intro p hp
    rw [List.isPrefixOf_iff_prefix] at hp
    exact hp.length_le
  rw [entityAt] at he
  repeat' split at he
  any_goals exact Option.noConfusion he
  all_goals
    rename_i hcond
    simp only [Option.some.injEq, Prod.mk.injEq] at he
    obtain ⟨-, h2⟩ := he
    subst h2
    refine ⟨by omega, ?_⟩
    have h := hlen _ hcond
    simpa using h

theorem unescapeF_nil (f : Nat) : unescapeF f [] = [] := by
  cases f <;> rfl

theorem unescapeF_mono : ∀ (n : Nat) (l : List Char) (f g : Nat),
    l.length ≤ n → l.length ≤ f → l.length ≤ g → unescapeF f l = unescapeF g l := by
  intro n
  induction n with
  | zero =>
    intro l f g h1 _ _
    have hnil : l = [] := List.eq_nil_of_length_eq_zero (by omega)
    subst hnil
    rw [unescapeF_nil, unescapeF_nil]
  | succ n ih =>
    intro l f g h1 hf hg
    match l with
    | [] => rw [unescapeF_nil, unescapeF_nil]
    | c :: rest =>
      simp only [List.length_cons] at h1 hf hg
      obtain ⟨f', rfl⟩ : ∃ f', f = f' + 1 := ⟨f - 1, by omega⟩
      obtain ⟨g', rfl⟩ : ∃ g', g = g' + 1 := ⟨g - 1, by omega⟩
      rw [unescapeF, unescapeF]
      cases he : entityAt (c :: rest) with
      | none => rw [ih rest f' g' (by omega) (by omega) (by omega)]
      | some rk =>
        obtain ⟨r, k⟩ := rk
        obtain ⟨hk4, hklen⟩ := entityAt_bounds he
        simp only [List.length_cons] at hklen
        have hdl : ((c :: rest).drop k).length = rest.length + 1 - k := by
          rw [List.length_drop, List.length_cons]
        show r :: unescapeF f' ((c :: rest).drop k) = r :: unescapeF g' ((c :: rest).drop k)
        rw [ih ((c :: rest).drop k) f' g' (by omega) (by omega) (by omega)]

theorem isPrefixOf_take (j : Nat) : ∀ (p x : List Char),
    p.isPrefixOf x = true → (p.take j).isPrefixOf (x.take j) = true := by
  induction j with
  | zero => intro p x _; rfl
  | succ j ih =>
    intro p x h
    cases p with
    | nil => simp [List.isPrefixOf]
    | cons a p' =>
      cases x with
      | nil => exact absurd h (by simp [List.isPrefixOf])
      | cons b x' =>
        have h2 : (a == b && p'.isPrefixOf x') = true := h
        simp only [Bool.and_eq_true] at h2
        show (a == b && (p'.take j).isPrefixOf (x'.take j)) = true
        rw [h2.1, ih p' x' h2.2]
        rfl

/-- A prefix test fails whenever it already fails on a window that fits
before the appended part. -/
theorem isPrefixOf_false_append (p a z : List Char) (j : Nat) (hja : j ≤ a.length)
    (hw : ((p.take j).isPrefixOf (a.take j)) = false) : p.isPrefixOf (a ++ z) = false := by
  rw [Bool.eq_false_iff]
  intro htrue
  have h := isPrefixOf_take j p (a ++ z) htrue
  rw [List.take_append_of_le_length hja, hw] at h
  exact Bool.false_ne_true h

theorem entityAt_ent1 (z : List Char) :
    entityAt ("&#34;".data ++ z) = some ('\"', 5) := by
  rw [entityAt,
    if_pos (isPrefixOf_self_append _ _)]

theorem entityAt_ent2 (z : List Char) :
    entityAt ("&#39;".data ++ z) = some ('\'', 5) := by
  rw [entityAt,
    if_neg (by
      rw [isPrefixOf_false_append "&#34;".data "&#39;".data z 4 (by decide) (by decide)]
      exact Bool.false_ne_true),
    if_pos (isPrefixOf_self_append _ _)]

theorem entityAt_ent3 (z : List Char) :
    entityAt ("&amp;".data ++ z) = some ('&', 5) := by
  rw [entityAt,
    if_neg (by
      rw [isPrefixOf_false_append "&#34;".data "&amp;".data z 4 (by decide) (by decide)]
      exact Bool.false_ne_true),
    if_neg (by
      rw [isPrefixOf_false_append "&#39;".data "&amp;".data z 4 (by decide) (by decide)]
      exact Bool.false_ne_true),
    if_pos (isPrefixOf_self_append _ _)]

theorem entityAt_ent4 (z : List Char) :
    entityAt ("&lt;".data ++ z) = some ('<', 4) := by
  rw [entityAt,
    if_neg (by
      rw [isPrefixOf_false_append "&#34;".data "&lt;".data z 4 (by decide) (by decide)]
      exact Bool.false_ne_true),
    if_neg (by
      rw [isPrefixOf_false_append "&#39;".data "&lt;".data z 4 (by decide) (by decide)]
      exact Bool.false_ne_true),
    if_neg (by
      rw [isPrefixOf_false_append "&amp;".data "&lt;".data z 4 (by decide) (by decide)]
      exact Bool.false_ne_true),
    if_pos (isPrefixOf_self_append _ _)]

theorem entityAt_ent5 (z : List Char) :
    entityAt ("&gt;".data ++ z) = some ('>', 4) := by
  rw [entityAt,
    if_neg (by
      rw [isPrefixOf_false_append "&#34;".data "&gt;".data z 4 (by decide) (by decide)]
      exact Bool.false_ne_true),
    if_neg (by
      rw [isPrefixOf_false_append "&#39;".data "&gt;".data z 4 (by decide) (by decide)]
      exact Bool.false_ne_true),
    if_neg (by
      rw [isPrefixOf_false_append "&amp;".data "&gt;".data z 4 (by decide) (by decide)]
      exact Bool.false_ne_true),
    if_neg (by
      rw [isPrefixOf_false_append "&lt;".data "&gt;".data z 4 (by decide) (by decide)]
      exact Bool.false_ne_true),
    if_pos (isPrefixOf_self_append _ _)]

theorem entityAt_ent6 (z : List Char) :
    entityAt ("&#x9;".data ++ z) = some ('\t', 5) := by
  rw [entityAt,
    if_neg (by
      rw [isPrefixOf_false_append "&#34;".data "&#x9;".data z 4 (by decide) (by decide)]
      exact Bool.false_ne_true),
    if_neg (by
      rw [isPrefixOf_false_append "&#39;".data "&#x9;".data z 4 (by decide) (by decide)]
      exact Bool.false_ne_true),
    if_neg (by
      rw [isPrefixOf_false_append "&amp;".data "&#x9;".data z 4 (by decide) (by decide)]
      exact Bool.false_ne_true),
    if_neg (by
      rw [isPrefixOf_false_append "&lt;".data "&#x9;".data z 4 (by decide) (by decide)]
      exact Bool.false_ne_true),
    if_neg (by
      rw [isPrefixOf_false_append "&gt;".data "&#x9;".data z 4 (by decide) (by decide)]
      exact Bool.false_ne_true),
    if_pos (isPrefixOf_self_append _ _)]

theorem entityAt_ent7 (z : List Char) :
    entityAt ("&#xA;".data ++ z) = some ('\n', 5) := by
  rw [entityAt,
    if_neg (by
      rw [isPrefixOf_false_append "&#34;".data "&#xA;".data z 4 (by decide) (by decide)]
      exact Bool.false_ne_true),
    if_neg (by
      rw [isPrefixOf_false_append "&#39;".data "&#xA;".data z 4 (by decide) (by decide)]
      exact Bool.false_ne_true),
    if_neg (by
      rw [isPrefixOf_false_append "&amp;".data "&#xA;".data z 4 (by decide) (by decide)]
      exact Bool.false_ne_true),
    if_neg (by
      rw [isPrefixOf_false_append "&lt;".data "&#xA;".data z 4 (by decide) (by decide)]
      exact Bool.false_ne_true),
    if_neg (by
      rw [isPrefixOf_false_append "&gt;".data "&#xA;".data z 4 (by decide) (by decide)]
      exact Bool.false_ne_true),
    if_neg (by
      rw [isPrefixOf_false_append "&#x9;".data "&#xA;".data z 4 (by decide) (by decide)]
      exact Bool.false_ne_true),
    if_pos (isPrefixOf_self_append _ _)]

theorem entityAt_ent8 (z : List Char) :
    entityAt ("&#xD;".data ++ z) = some ('\r', 5) := by
  rw [entityAt,
    if_neg (by
      rw [isPrefixOf_false_append "&#34;".data "&#xD;".data z 4 (by decide) (by decide)]
      exact Bool.false_ne_true),
    if_neg (by
      rw [isPrefixOf_false_append "&#39;".data "&#xD;".data z 4 (by decide) (by decide)]
      exact Bool.false_ne_true),
    if_neg (by
      rw [isPrefixOf_false_append "&amp;".data "&#xD;".data z 4 (by decide) (by decide)]
      exact Bool.false_ne_true),
    if_neg (by
      rw [isPrefixOf_false_append "&lt;".data "&#xD;".data z 4 (by decide) (by decide)]
      exact Bool.false_ne_true),
    if_neg (by
      rw [isPrefixOf_false_append "&gt;".data "&#xD;".data z 4 (by decide) (by decide)]
      exact Bool.false_ne_true),
    if_neg (by
      rw [isPrefixOf_false_append "&#x9;".data "&#xD;".data z 4 (by decide) (by decide)]
      exact Bool.false_ne_true),
    if_neg (by
      rw [isPrefixOf_false_append "&#xA;".data "&#xD;".data z 4 (by decide) (by decide)]
      exact Bool.false_ne_true),
    if_pos (isPrefixOf_self_append _ _)]

theorem unescape_ent1 (z : List Char) :
    unescape ("&#34;".data ++ z) = '\"' :: unescape z := by
  have hl : ("&#34;".data ++ z).length = (z.length + 4) + 1 := by
    rw [List.length_append, show ("&#34;".data).length = 5 from rfl]
    omega
  rw [unescape, hl,
    show "&#34;".data ++ z = '&' :: ("#34;".data ++ z) from rfl, unescapeF,
    show entityAt ('&' :: ("#34;".data ++ z)) = some ('\"', 5) from by
      rw [show ('&' :: ("#34;".data ++ z)) = "&#34;".data ++ z from rfl]
      exact entityAt_ent1 z]
  show '\"' :: unescapeF (z.length + 4) (('&' :: ("#34;".data ++ z)).drop 5) =
    '\"' :: unescape z
  rw [show ('&' :: ("#34;".data ++ z)).drop 5 = z from by
      rw [show ('&' :: ("#34;".data ++ z)) = "&#34;".data ++ z from rfl,
        show (5 : Nat) = ("&#34;".data).length from rfl]
      exact List.drop_left _ _]
  congr 1
  rw [unescape]
  exact unescapeF_mono z.length z _ _ (le_refl _) (by omega) (le_refl _)

theorem unescape_ent2 (z : List Char) :
    unescape ("&#39;".data ++ z) = '\'' :: unescape z := by
  have hl : ("&#39;".data ++ z).length = (z.length + 4) + 1 := by
    rw [List.length_append, show ("&#39;".data).length = 5 from rfl]
    omega
  rw [unescape, hl,
    show "&#39;".data ++ z = '&' :: ("#39;".data ++ z) from rfl, unescapeF,
    show entityAt ('&' :: ("#39;".data ++ z)) = some ('\'', 5) from by
      rw [show ('&' :: ("#39;".data ++ z)) = "&#39;".data ++ z from rfl]
      exact entityAt_ent2 z]
  show '\'' :: unescapeF (z.length + 4) (('&' :: ("#39;".data ++ z)).drop 5) =
    '\'' :: unescape z
  rw [show ('&' :: ("#39;".data ++ z)).drop 5 = z from by
      rw [show ('&' :: ("#39;".data ++ z)) = "&#39;".data ++ z from rfl,
        show (5 : Nat) = ("&#39;".data).length from rfl]
      exact List.drop_left _ _]
  congr 1
  rw [unescape]
  exact unescapeF_mono z.length z _ _ (le_refl _) (by omega) (le_refl _)

theorem unescape_ent3 (z : List Char) :
    unescape ("&amp;".data ++ z) = '&' :: unescape z := by
  have hl : ("&amp;".data ++ z).length = (z.length + 4) + 1 := by
    rw [List.length_append, show ("&amp;".data).length = 5 from rfl]
    omega
  rw [unescape, hl,
    show "&amp;".data ++ z = '&' :: ("amp;".data ++ z) from rfl, unescapeF,
    show entityAt ('&' :: ("amp;".data ++ z)) = some ('&', 5) from by
      rw [show ('&' :: ("amp;".data ++ z)) = "&amp;".data ++ z from rfl]
      exact entityAt_ent3 z]
  show '&' :: unescapeF (z.length + 4) (('&' :: ("amp;".data ++ z)).drop 5) =
    '&' :: unescape z
  rw [show ('&' :: ("amp;".data ++ z)).drop 5 = z from by
      rw [show ('&' :: ("amp;".data ++ z)) = "&amp;".data ++ z from rfl,
        show (5 : Nat) = ("&amp;".data).length from rfl]
      exact List.drop_left _ _]
  congr 1
  rw [unescape]
  exact unescapeF_mono z.length z _ _ (le_refl _) (by omega) (le_refl _)

theorem unescape_ent4 (z : List Char) :
    unescape ("&lt;".data ++ z) = '<' :: unescape z := by
  have hl : ("&lt;".data ++ z).length = (z.length + 3) + 1 := by
    rw [List.length_append, show ("&lt;".data).length = 4 from rfl]
    omega
  rw [unescape, hl,
    show "&lt;".data ++ z = '&' :: ("lt;".data ++ z) from rfl, unescapeF,
    show entityAt ('&' :: ("lt;".data ++ z)) = some ('<', 4) from by
      rw [show ('&' :: ("lt;".data ++ z)) = "&lt;".data ++ z from rfl]
      exact entityAt_ent4 z]
  show '<' :: unescapeF (z.length + 3) (('&' :: ("lt;".data ++ z)).drop 4) =
    '<' :: unescape z
  rw [show ('&' :: ("lt;".data ++ z)).drop 4 = z from by
      rw [show ('&' :: ("lt;".data ++ z)) = "&lt;".data ++ z from rfl,
        show (4 : Nat) = ("&lt;".data).length from rfl]
      exact List.drop_left _ _]
  congr 1
  rw [unescape]
  exact unescapeF_mono z.length z _ _ (le_refl _) (by omega) (le_refl _)

theorem unescape_ent5 (z : List Char) :
    unescape ("&gt;".data ++ z) = '>' :: unescape z := by
  have hl : ("&gt;".data ++ z).length = (z.length + 3) + 1 := by
    rw [List.length_append, show ("&gt;".data).length = 4 from rfl]
    omega
  rw [unescape, hl,
    show "&gt;".data ++ z = '&' :: ("gt;".data ++ z) from rfl, unescapeF,
    show entityAt ('&' :: ("gt;".data ++ z)) = some ('>', 4) from by
      rw [show ('&' :: ("gt;".data ++ z)) = "&gt;".data ++ z from rfl]
      exact entityAt_ent5 z]
  show '>' :: unescapeF (z.length + 3) (('&' :: ("gt;".data ++ z)).drop 4) =
    '>' :: unescape z
  rw [show ('&' :: ("gt;".data ++ z)).drop 4 = z from by
      rw [show ('&' :: ("gt;".data ++ z)) = "&gt;".data ++ z from rfl,
        show (4 : Nat) = ("&gt;".data).length from rfl]
      exact List.drop_left _ _]
  congr 1
  rw [unescape]
  exact unescapeF_mono z.length z _ _ (le_refl _) (by omega) (le_refl _)

theorem unescape_ent6 (z : List Char) :
    unescape ("&#x9;".data ++ z) = '\t' :: unescape z := by
  have hl : ("&#x9;".data ++ z).length = (z.length + 4) + 1 := by
    rw [List.length_append, show ("&#x9;".data).length = 5 from rfl]
    omega
  rw [unescape, hl,
    show "&#x9;".data ++ z = '&' :: ("#x9;".data ++ z) from rfl, unescapeF,
    show entityAt ('&' :: ("#x9;".data ++ z)) = some ('\t', 5) from by
      rw [show ('&' :: ("#x9;".data ++ z)) = "&#x9;".data ++ z from rfl]
      exact entityAt_ent6 z]
  show '\t' :: unescapeF (z.length + 4) (('&' :: ("#x9;".data ++ z)).drop 5) =
    '\t' :: unescape z
  rw [show ('&' :: ("#x9;".data ++ z)).drop 5 = z from by
      rw [show ('&' :: ("#x9;".data ++ z)) = "&#x9;".data ++ z from rfl,
        show (5 : Nat) = ("&#x9;".data).length from rfl]
      exact List.drop_left _ _]
  congr 1
  rw [unescape]
  exact unescapeF_mono z.length z _ _ (le_refl _) (by omega) (le_refl _)

theorem unescape_ent7 (z : List Char) :
    unescape ("&#xA;".data ++ z) = '\n' :: unescape z := by
  have hl : ("&#xA;".data ++ z).length = (z.length + 4) + 1 := by
    rw [List.length_append, show ("&#xA;".data).length = 5 from rfl]
    omega
  rw [unescape, hl,
    show "&#xA;".data ++ z = '&' :: ("#xA;".data ++ z) from rfl, unescapeF,
    show entityAt ('&' :: ("#xA;".data ++ z)) = some ('\n', 5) from by
      rw [show ('&' :: ("#xA;".data ++ z)) = "&#xA;".data ++ z from rfl]
      exact entityAt_ent7 z]
  show '\n' :: unescapeF (z.length + 4) (('&' :: ("#xA;".data ++ z)).drop 5) =
    '\n' :: unescape z
  rw [show ('&' :: ("#xA;".data ++ z)).drop 5 = z from by
      rw [show ('&' :: ("#xA;".data ++ z)) = "&#xA;".data ++ z from rfl,
        show (5 : Nat) = ("&#xA;".data).length from rfl]
      exact List.drop_left _ _]
  congr 1
  rw [unescape]
  exact unescapeF_mono z.length z _ _ (le_refl _) (by omega) (le_refl _)

theorem unescape_ent8 (z : List Char) :
    unescape ("&#xD;".data ++ z) = '\r' :: unescape z := by
  have hl : ("&#xD;".data ++ z).length = (z.length + 4) + 1 := by
    rw [List.length_append, show ("&#xD;".data).length = 5 from rfl]
    omega
  rw [unescape, hl,
    show "&#xD;".data ++ z = '&' :: ("#xD;".data ++ z) from rfl, unescapeF,
    show entityAt ('&' :: ("#xD;".data ++ z)) = some ('\r', 5) from by
      rw [show ('&' :: ("#xD;".data ++ z)) = "&#xD;".data ++ z from rfl]
      exact entityAt_ent8 z]
  show '\r' :: unescapeF (z.length + 4) (('&' :: ("#xD;".data ++ z)).drop 5) =
    '\r' :: unescape z
  rw [show ('&' :: ("#xD;".data ++ z)).drop 5 = z from by
      rw [show ('&' :: ("#xD;".data ++ z)) = "&#xD;".data ++ z from rfl,
        show (5 : Nat) = ("&#xD;".data).length from rfl]
      exact List.drop_left _ _]
  congr 1
  rw [unescape]
  exact unescapeF_mono z.length z _ _ (le_refl _) (by omega) (le_refl _)

theorem entityAt_plain {c : Char} (hc : ¬ c = '&') (rest : List Char) :
    entityAt (c :: rest) = none := by
  rw [entityAt,
    if_neg (by
      rw [show "&#34;".data = '&' :: "#34;".data from rfl,
        isPrefixOf_cons_false _ _ (fun he => hc he.symm)]
      exact Bool.false_ne_true),
    if_neg (by
      rw [show "&#39;".data = '&' :: "#39;".data from rfl,
        isPrefixOf_cons_false _ _ (fun he => hc he.symm)]
      exact Bool.false_ne_true),
    if_neg (by
      rw [show "&amp;".data = '&' :: "amp;".data from rfl,
        isPrefixOf_cons_false _ _ (fun he => hc he.symm)]
      exact Bool.false_ne_true),
    if_neg (by
      rw [show "&lt;".data = '&' :: "lt;".data from rfl,
        isPrefixOf_cons_false _ _ (fun he => hc he.symm)]
      exact Bool.false_ne_true),
    if_neg (by
      rw [show "&gt;".data = '&' :: "gt;".data from rfl,
        isPrefixOf_cons_false _ _ (fun he => hc he.symm)]
      exact Bool.false_ne_true),
    if_neg (by
      rw [show "&#x9;".data = '&' :: "#x9;".data from rfl,
        isPrefixOf_cons_false _ _ (fun he => hc he.symm)]
      exact Bool.false_ne_true),
    if_neg (by
      rw [show "&#xA;".data = '&' :: "#xA;".data from rfl,
        isPrefixOf_cons_false _ _ (fun he => hc he.symm)]
      exact Bool.false_ne_true),
    if_neg (by
      rw [show "&#xD;".data = '&' :: "#xD;".data from rfl,
        isPrefixOf_cons_false _ _ (fun he => hc he.symm)]
      exact Bool.false_ne_true)]

theorem unescape_nil : unescape [] = [] := rfl

theorem unescape_plain {c : Char} (hc : ¬ c = '&') (rest : List Char) :
    unescape (c :: rest) = c :: unescape rest := by
  rw [unescape, List.length_cons, unescapeF, entityAt_plain hc rest]
  rfl

theorem xmlEscape_nil : xmlEscape [] = [] := rfl

theorem xmlEscape_cons (c : Char) (s : List Char) :
    xmlEscape (c :: s) = xmlEscapeChar c ++ xmlEscape s := by
  simp [xmlEscape]

theorem lt_not_mem_escapeChar (c : Char) : '<' ∉ xmlEscapeChar c := by
  rw [xmlEscapeChar]
  repeat' split
  all_goals first
    | decide
    | (intro hm
       rw [List.mem_singleton] at hm
       subst hm
       simp_all)

theorem lt_not_mem_escape (s : List Char) : '<' ∉ xmlEscape s := by
  intro hmem
  rw [xmlEscape, List.mem_flatMap] at hmem
  obtain ⟨c, -, hm⟩ := hmem
  exact lt_not_mem_escapeChar c hm

/-- Un-escaping inverts escaping on XML-representable text. -/
theorem unescape_escape : ∀ s : List Char, (∀ c ∈ s, xmlCharInRange c = true) →
    unescape (xmlEscape s) = s := by
  intro s
  induction s with
  | nil => intro _; rfl
  | cons c cs ih =>
    intro hall
    have hcs : ∀ x ∈ cs, xmlCharInRange x = true :=
      fun x hx => hall x (List.mem_cons_of_mem c hx)
    have hc : xmlCharInRange c = true := hall c (List.mem_cons_self c cs)
    rw [xmlEscape_cons]
    by_cases h1 : c = '"'
    · subst h1
      rw [show xmlEscapeChar '"' = "&#34;".data from rfl, unescape_ent1, ih hcs]
    by_cases h2 : c = '\''
    · subst h2
      rw [show xmlEscapeChar '\'' = "&#39;".data from rfl, unescape_ent2, ih hcs]
    by_cases h3 : c = '&'
    · subst h3
      rw [show xmlEscapeChar '&' = "&amp;".data from rfl, unescape_ent3, ih hcs]
    by_cases h4 : c = '<'
    · subst h4
      rw [show xmlEscapeChar '<' = "&lt;".data from rfl, unescape_ent4, ih hcs]
    by_cases h5 : c = '>'
    · subst h5
      rw [show xmlEscapeChar '>' = "&gt;".data from rfl, unescape_ent5, ih hcs]
    by_cases h6 : c = '\t'
    · subst h6
      rw [show xmlEscapeChar '\t' = "&#x9;".data from rfl, unescape_ent6, ih hcs]
    by_cases h7 : c = '\n'
    · subst h7
      rw [show xmlEscapeChar '\n' = "&#xA;".data from rfl, unescape_ent7, ih hcs]
    by_cases h8 : c = '\r'
    · subst h8
      rw [show xmlEscapeChar '\r' = "&#xD;".data from rfl, unescape_ent8, ih hcs]
    have hesc : xmlEscapeChar c = [c] := by
      rw [xmlEscapeChar, if_neg h1, if_neg h2, if_neg h3, if_neg h4, if_neg h5,
        if_neg h6, if_neg h7, if_neg h8, if_pos hc]
    rw [hesc, List.singleton_append, unescape_plain h3, ih hcs]

theorem textRuns_cons_skip {c : Char} {rest : List Char}
    (h : (openTagL.isPrefixOf (c :: rest)) = false) :
    textRuns (c :: rest) = textRuns rest := by
  rw [textRuns, textRuns, List.length_cons, textRunsF,
    if_neg (by rw [h]; exact Bool.false_ne_true)]

/-- Scanning junk that never triggers the open-tag test lands on the tag. -/
theorem textRuns_junk : ∀ (junk z : List Char),
    (∀ k, k < junk.length → (openTagL.isPrefixOf ((junk ++ openTagL).drop k)) = false) →
    textRuns (junk ++ (openTagL ++ z)) = textRuns (openTagL ++ z) := by
  intro junk
  induction junk with
  | nil => intro z _; rw [List.nil_append]
  | cons c junk' ih =>
    intro z hns
    rw [List.cons_append]
    have hfalse : (openTagL.isPrefixOf (c :: (junk' ++ (openTagL ++ z)))) = false := by
      have h0 := hns 0 (by simp)
      rw [List.drop_zero] at h0
      rw [show (c :: (junk' ++ (openTagL ++ z))) = (c :: (junk' ++ openTagL)) ++ z from by
        simp [List.append_assoc]]
      rw [isPrefixOf_append_of_le _ _ _
        (by simp only [List.length_cons, List.length_append]; omega)]
      exact h0
    rw [textRuns_cons_skip hfalse]
    apply ih
    intro k hk
    have h := hns (k + 1) (by simp only [List.length_cons]; omega)
    rwa [List.cons_append, List.drop_succ_cons] at h

/-- At an open tag, the scanner collects the escaped run and continues
after the closing tag. -/
theorem textRuns_open (s z : List Char) (h : '<' ∉ s) :
    textRuns (openTagL ++ (s ++ (closeTagL ++ z))) = unescape s :: textRuns z := by
  have hlen : (openTagL ++ (s ++ (closeTagL ++ z))).length =
      (25 + (s.length + (6 + z.length))) + 1 := by
    rw [List.length_append, List.length_append, List.length_append,
      show openTagL.length = 26 from rfl, show closeTagL.length = 6 from rfl]
    omega
  rw [textRuns, hlen,
    show openTagL ++ (s ++ (closeTagL ++ z)) =
      '<' :: ("w:t xml:space=\"preserve\">".data ++ (s ++ (closeTagL ++ z))) from rfl,
    textRunsF,
    if_pos (by
      rw [show ('<' :: ("w:t xml:space=\"preserve\">".data ++ (s ++ (closeTagL ++ z)))) =
        openTagL ++ (s ++ (closeTagL ++ z)) from rfl]
      exact isPrefixOf_self_append _ _),
    show ('<' :: ("w:t xml:space=\"preserve\">".data ++ (s ++ (closeTagL ++ z)))).drop
        openTagL.length = s ++ (closeTagL ++ z) from by
      rw [show ('<' :: ("w:t xml:space=\"preserve\">".data ++ (s ++ (closeTagL ++ z)))) =
        openTagL ++ (s ++ (closeTagL ++ z)) from rfl]
      exact List.drop_left _ _,
    takeRun_split s z h]
  congr 1
  rw [textRuns]
  exact textRunsF_mono z.length z _ _ (le_refl _) (by omega) (le_refl _)

/-! Decomposition of `buildDocumentXML` into junk blocks and text runs. -/

def titlePreL : List Char :=
  "<?xml version=\"1.0\" encoding=\"UTF-8\" standalone=\"yes\"?><w:document xmlns:w=\"http://schemas.openxmlformats.org/wordprocessingml/2006/main\"><w:body><w:p><w:r><w:rPr><w:b/><w:sz w:val=\"48\"/></w:rPr>".data

def paraPreL : List Char :=
  "<w:p><w:pPr><w:jc w:val=\"both\"/></w:pPr><w:r><w:rPr><w:sz w:val=\"24\"/></w:rPr>".data

def afterRunL : List Char := "</w:r></w:p>".data

/-- The document after the title's closing tag: one block per paragraph,
then the section declaration and closing tags. -/
def paraBlocks : List (List Char) → List Char
  | [] => afterRunL ++ sectClose.data
  | p :: ps => (afterRunL ++ paraPreL) ++ (openTagL ++ (xmlEscape p ++ (closeTagL ++ paraBlocks ps)))

theorem paraBlocks_eq (ps : List (List Char)) :
    afterRunL ++ (ps.flatMap (fun p => paraRunOpen.data ++ xmlEscape p ++ runClose.data) ++
      sectClose.data) = paraBlocks ps := by
  induction ps with
  | nil => rfl
  | cons q qs ih =>
    rw [List.flatMap_cons, paraBlocks, ← ih]
    simp only [List.append_assoc]
    rfl

theorem doc_decompose (t : List Char) (ps : List (List Char)) :
    buildDocumentXML t ps =
      titlePreL ++ (openTagL ++ (xmlEscape t ++ (closeTagL ++ paraBlocks ps))) := by
  rw [buildDocumentXML, ← paraBlocks_eq ps]
  simp only [List.append_assoc]
  rfl

set_option maxRecDepth 40000 in
/-- The markup before the title's text run never matches the open tag
early (checked by evaluation). -/
theorem titlePre_noSpurious :
    ∀ k, k < titlePreL.length →
      (openTagL.isPrefixOf ((titlePreL ++ openTagL).drop k)) = false := by
  decide

set_option maxRecDepth 40000 in
/-- The markup between two text runs never matches the open tag early. -/
theorem paraPre_noSpurious :
    ∀ k, k < (afterRunL ++ paraPreL).length →
      (openTagL.isPrefixOf (((afterRunL ++ paraPreL) ++ openTagL).drop k)) = false := by
  decide

set_option maxRecDepth 40000 in
/-- The trailing section/closing markup contains no text run. -/
theorem tail_no_runs : textRuns (afterRunL ++ sectClose.data) = [] := by
  decide

theorem textRuns_paraBlocks : ∀ ps : List (List Char),
    (∀ p ∈ ps, ∀ c ∈ p, xmlCharInRange c = true) →
    textRuns (paraBlocks ps) = ps := by
  intro ps
  induction ps with
  | nil =>
    intro _
    rw [paraBlocks]
    exact tail_no_runs
  | cons q qs ih =>
    intro hall
    rw [paraBlocks, textRuns_junk (afterRunL ++ paraPreL) _ paraPre_noSpurious,
      textRuns_open (xmlEscape q) (paraBlocks qs) (lt_not_mem_escape q),
      unescape_escape q (hall q (List.mem_cons_self q qs)),
      ih (fun p hp => hall p (List.mem_cons_of_mem q hp))]

/-- C1 amended: for every title and list of surviving chunks whose
characters all lie in the XML character range, the unescaped text-run
contents of the generated `word/document.xml` are exactly the title
followed by the chunks, in order, one run per chunk. (For characters
outside the range, Go's `xml.EscapeText` substitutes U+FFFD, so the
claim as stated fails — see the counterexample.) -/
theorem C1_document_text_amended (title : List Char) (ps : List (List Char))
    (ht : ∀ c ∈ title, xmlCharInRange c = true)
    (hp : ∀ p ∈ ps, ∀ c ∈ p, xmlCharInRange c = true) :
    textRuns (buildDocumentXML title ps) = title :: ps := by
  rw [doc_decompose, textRuns_junk titlePreL _ titlePre_noSpurious,
    textRuns_open (xmlEscape title) (paraBlocks ps) (lt_not_mem_escape title),
    unescape_escape title ht, textRuns_paraBlocks ps hp]

/-- C1 witness: a concrete title and paragraph are recovered exactly. -/
theorem C1_document_text_amended_witness :
    textRuns (buildDocumentXML "Go & Lean <3".data ["Hello world".data]) =
      "Go & Lean <3".data :: ["Hello world".data] :=
  C1_document_text_amended "Go & Lean <3".data ["Hello world".data]
    (by decide) (by decide)

set_option maxRecDepth 100000 in
set_option maxHeartbeats 1000000 in
/-- C1 counterexample: a body chunk holding the control character U+0001
(legal in a Go string, outside the XML character range) survives
chunking untouched, but the emitted run holds U+FFFD instead, so the
stripped document text does not equal title-then-chunks. -/
theorem C1_counterexample_control_char :
    textRuns (buildDocumentXML "T".data [['\x01']]) ≠ "T".data :: [['\x01']] ∧
    textRuns (buildDocumentXML "T".data [['\x01']]) = ["T".data, ['\uFFFD']] := by
  refine ⟨?_, ?_⟩ <;> decide

end WikiTwoDocx
